import Mathlib

/-!
# mcjoin: group-spec expansion, packet validation, statistics and the send tick

A shallow embedding of `src/mcjoin.c` and theorems about it.

* C strings are lists of characters (the bytes before the terminating NUL); every
  command-line argument is a string of its own, so what `inet_ntop` writes behind the
  end of an argument (line 723 writes the next address over the argument in place) is
  outside the model.
* Addresses are the byte arrays `in_addr` and `in6_addr` hold, in network byte order.
* The group table `groups[0 .. group_num - 1]` is a list, `group_num` its length.
* `size_t` arithmetic is taken modulo `2 ^ 64`, `unsigned int` modulo `2 ^ 32`.
* The C library routines the program calls (`strchr`, `strstr`, `atoi`, `inet_pton`,
  `inet_ntop`, `inet_ntoa`, `snprintf`) follow their glibc implementations.
* Calls into the operating system (`recvmsg`, `poll`, `send_socket`, `getpid`) appear
  as inputs that carry what the call returned.
* `DEBUG` traces do not change the state and are left out; `ERROR` and `PRINT` append a
  message to a log.

The definitions come first: the C library, the data model, `main`'s expansion of the
group specs, `send_mcast`, `recv_mcast`, `show_stats` and the polling loop of `loop`.
The theorems follow, those that settle a claim `C1` .. `C10` of the specification say so.
-/

namespace Mcjoin

/-! ## Constants of `mcjoin.c` and of the platform headers -/

def BUFSZ : Nat := 100
def MAX_NUM_GROUPS : Nat := 2048
def DEFAULT_GROUP : List Char := "225.1.2.3".toList
def DEFAULT_PORT : Nat := 1234
def MAGIC_KEY : List Char := "Sender PID ".toList

def AF_INET : Nat := 2
def AF_INET6 : Nat := 10
def IPPROTO_IP : Nat := 0
def IP_PKTINFO : Nat := 8

/-- Value of `sizeof(struct sockaddr_in)`. -/
def SIZEOF_SOCKADDR_IN : Nat := 16
/-- Value of `sizeof(struct sockaddr_in6)`. -/
def SIZEOF_SOCKADDR_IN6 : Nat := 28

/-- Number of values of `size_t` (LP64). -/
def SIZE_T_MOD : Nat := 2 ^ 64

/-- The NUL byte. -/
def NUL : Char := Char.ofNat 0

/-! ## C library -/

/-- Index of the first occurrence of `c` in the string, as `strchr` locates it. -/
def strchr : List Char → Char → Option Nat
  | [], _ => none
  | x :: xs, c => if x = c then some 0 else (strchr xs c).map (· + 1)

/-- Whether `needle` is an initial segment of the string. -/
def starts_with : List Char → List Char → Bool
  | _, [] => true
  | [], _ :: _ => false
  | x :: xs, n :: ns => x == n && starts_with xs ns

/-- Index of the first occurrence of `needle`, as `strstr` locates it. -/
def strstr : List Char → List Char → Option Nat
  | [], needle => if starts_with [] needle then some 0 else none
  | x :: xs, needle =>
    if starts_with (x :: xs) needle then some 0 else (strstr xs needle).map (· + 1)

/-- The C string stored at the start of a character array: the bytes before the first NUL. -/
def c_str (buf : List Char) : List Char := buf.takeWhile (· ≠ NUL)

def isdigit (c : Char) : Bool := decide (48 ≤ c.toNat ∧ c.toNat ≤ 57)

def isspace (c : Char) : Bool := decide (c.toNat = 32 ∨ (9 ≤ c.toNat ∧ c.toNat ≤ 13))

/-- Value of the leading run of decimal digits, continuing from `acc`. -/
def digits_value : Nat → List Char → Nat
  | acc, [] => acc
  | acc, c :: cs => if isdigit c then digits_value (acc * 10 + (c.toNat - 48)) cs else acc

/-- Saturation of `strtol` to the range of `long`. -/
def clamp_long (v : Int) : Int :=
  if v < -(2 ^ 63) then -(2 ^ 63) else if v > 2 ^ 63 - 1 then 2 ^ 63 - 1 else v

/-- Conversion of a `long` to `int`, keeping the low 32 bits. -/
def to_int (v : Int) : Int := (v + 2 ^ 31) % 2 ^ 32 - 2 ^ 31

/-- The sign and digits part of `strtol`, after leading white space. -/
def strtol_signed : List Char → Int
  | '-' :: cs => -(digits_value 0 cs : Int)
  | '+' :: cs => (digits_value 0 cs : Int)
  | cs => (digits_value 0 cs : Int)

/-- The value of `atoi(s)`, which is `(int) strtol(s, NULL, 10)`. -/
def atoi (s : List Char) : Int :=
  to_int (clamp_long (strtol_signed (s.dropWhile isspace)))

/-- The character of a decimal digit. -/
def digit_char (d : Nat) : Char := Char.ofNat (48 + d)

/-- Text of an octet as `%u` prints it. -/
def u8_text (n : Nat) : List Char :=
  if n < 10 then [digit_char n]
  else if n < 100 then [digit_char (n / 10), digit_char (n % 10)]
  else [digit_char (n / 100), digit_char (n / 10 % 10), digit_char (n % 10)]

/-- Decimal digits of `n`, most significant first, for at most `fuel` digits. -/
def dec_text_fuel : Nat → Nat → List Char
  | 0, _ => []
  | fuel + 1, n =>
    (if n / 10 = 0 then [] else dec_text_fuel fuel (n / 10)) ++ [digit_char (n % 10)]

/-- Text of an unsigned number as `%u` prints it. -/
def dec_text (n : Nat) : List Char := dec_text_fuel (n + 1) n

/-- The loop of glibc's `inet_pton4`: `done` holds the finished octets, `tp` the octet
being read, `octets` the number of octets started. -/
def inet_pton4_loop : List Char → List Nat → Nat → Bool → Nat → Option (List Nat)
  | [], done, tp, _, octets => if octets < 4 then none else some (done ++ [tp])
  | ch :: src, done, tp, saw_digit, octets =>
    if isdigit ch then
      let new := tp * 10 + (ch.toNat - 48)
      if saw_digit && tp == 0 then none
      else if new > 255 then none
      else if !saw_digit then
        if octets + 1 > 4 then none else inet_pton4_loop src done new true (octets + 1)
      else inet_pton4_loop src done new saw_digit octets
    else if ch == '.' && saw_digit then
      if octets == 4 then none else inet_pton4_loop src (done ++ [tp]) 0 false octets
    else none

/-- The call `inet_pton(AF_INET, src, dst)`: the four bytes stored at `dst`, or `none` when the
call returns 0. -/
def inet_pton4 (src : List Char) : Option (List Nat) := inet_pton4_loop src [] 0 false 0

/-- Dotted-quad text of the bytes of an `in_addr` (the format `%u.%u.%u.%u`). -/
def inet_ntop4_text : List Nat → List Char
  | [] => []
  | [b] => u8_text b
  | b :: bs => u8_text b ++ '.' :: inet_ntop4_text bs

/-- Value of a hexadecimal digit, as glibc's `hex_digit_value`. -/
def hex_digit_value (c : Char) : Option Nat :=
  if isdigit c then some (c.toNat - 48)
  else if 97 ≤ c.toNat ∧ c.toNat ≤ 102 then some (c.toNat - 87)
  else if 65 ≤ c.toNat ∧ c.toNat ≤ 70 then some (c.toNat - 55)
  else none

/-- The two bytes of a 16-bit word, high byte first. -/
def word_bytes (w : Nat) : List Nat := [w / 256 % 256, w % 256]

/-- State of glibc's `inet_pton6` when its loop ends: the 16-bit words stored so far,
the position of `::` and the digits of the group being read. -/
structure Pton6 where
  words : List Nat
  colonp : Option Nat
  xdigits_seen : Nat
  val : Nat

/-- The loop of glibc's `inet_pton6`; `curtok` is the text from the start of the
current group. -/
def inet_pton6_loop : List Char → List Nat → Option Nat → List Char → Nat → Nat → Option Pton6
  | [], words, colonp, _, seen, val => some ⟨words, colonp, seen, val⟩
  | ch :: src, words, colonp, curtok, seen, val =>
    match hex_digit_value ch with
    | some digit =>
      if seen = 4 then none
      else if val * 16 + digit > 65535 then none
      else inet_pton6_loop src words colonp curtok (seen + 1) (val * 16 + digit)
    | none =>
      if ch = ':' then
        if seen = 0 then
          if colonp.isSome then none
          else inet_pton6_loop src words (some words.length) src 0 0
        else if src = [] then none
        else if words.length + 1 > 8 then none
        else inet_pton6_loop src (words ++ [val]) colonp src 0 0
      else if ch = '.' ∧ words.length + 2 ≤ 8 then
        match inet_pton4 curtok with
        | some b => some ⟨words ++ [b.getD 0 0 * 256 + b.getD 1 0, b.getD 2 0 * 256 + b.getD 3 0],
            colonp, 0, val⟩
        | none => none
      else none

/-- What glibc's `inet_pton6` does after its loop: store the last group and expand `::`. -/
def inet_pton6_finish (s : Pton6) : Option (List Nat) :=
  if 0 < s.xdigits_seen ∧ 8 ≤ s.words.length then none
  else
    let words := if 0 < s.xdigits_seen then s.words ++ [s.val] else s.words
    match s.colonp with
    | some c =>
      if words.length = 8 then none
      else some (words.take c ++ List.replicate (8 - words.length) 0 ++ words.drop c)
    | none => if words.length = 8 then some words else none

/-- The body of glibc's `inet_pton6` behind its check of a leading colon: the sixteen
bytes of the words read. -/
def inet_pton6_body (src : List Char) : Option (List Nat) :=
  (inet_pton6_loop src [] none src 0 0).bind fun s =>
    (inet_pton6_finish s).map fun ws => ws.flatMap word_bytes

/-- The call `inet_pton(AF_INET6, src, dst)`: the sixteen bytes stored at `dst`, or `none` when
the call returns 0.  A leading colon must start `::` and is skipped. -/
def inet_pton6 (src : List Char) : Option (List Nat) :=
  match src with
  | [] => none
  | ':' :: rest =>
    (match rest with
     | ':' :: _ => inet_pton6_body rest
     | _ => none)
  | _ => inet_pton6_body src

/-- The character of a hexadecimal digit as `%x` prints it. -/
def hex_char (d : Nat) : Char := if d < 10 then Char.ofNat (48 + d) else Char.ofNat (87 + d)

/-- Text of a 16-bit word as `%x` prints it. -/
def hex_text (n : Nat) : List Char :=
  if n < 16 then [hex_char n]
  else if n < 256 then [hex_char (n / 16), hex_char (n % 16)]
  else if n < 4096 then [hex_char (n / 256), hex_char (n / 16 % 16), hex_char (n % 16)]
  else [hex_char (n / 4096), hex_char (n / 256 % 16), hex_char (n / 16 % 16), hex_char (n % 16)]

/-- The 16-bit words of a byte array, high byte first. -/
def bytes_words : List Nat → List Nat
  | hi :: lo :: rest => (hi * 256 + lo) :: bytes_words rest
  | _ => []

/-- The longer of the run just ended and the best run so far (`best = cur` on a
strictly longer run). -/
def better_run (best : Option (Nat × Nat)) (cur : Nat × Nat) : Option (Nat × Nat) :=
  match best with
  | none => some cur
  | some b => if cur.2 > b.2 then some cur else some b

/-- The scan of glibc's `inet_ntop6` for the longest run of zero words:
runs are `(base, len)`. -/
def scan_runs : List Nat → Nat → Option (Nat × Nat) → Option (Nat × Nat) → Option (Nat × Nat)
  | [], _, best, cur =>
    (match cur with
     | some c => better_run best c
     | none => best)
  | w :: ws, i, best, cur =>
    if w = 0 then
      (match cur with
       | none => scan_runs ws (i + 1) best (some (i, 1))
       | some c => scan_runs ws (i + 1) best (some (c.1, c.2 + 1)))
    else
      (match cur with
       | some c => scan_runs ws (i + 1) (better_run best c) none
       | none => scan_runs ws (i + 1) best none)

/-- The run `inet_ntop6` abbreviates to `::`: the longest run when it has two words
or more. -/
def best_run (words : List Nat) : Option (Nat × Nat) :=
  match scan_runs words 0 none none with
  | some b => if b.2 < 2 then none else some b
  | none => none

/-- The formatting loop of glibc's `inet_ntop6` from word `i` on; `src12` are the last
four bytes of the address. -/
def format6 (best : Option (Nat × Nat)) (w5 : Nat) (src12 : List Nat) :
    List Nat → Nat → List Char
  | [], _ => []
  | w :: ws, i =>
    if (match best with
        | some b => decide (b.1 ≤ i ∧ i < b.1 + b.2)
        | none => false) then
      (if (best.map fun b => b.1) = some i then [':'] else []) ++ format6 best w5 src12 ws (i + 1)
    else
      (if i ≠ 0 then [':'] else []) ++
        (if (match best with
             | some b => decide (i = 6 ∧ b.1 = 0 ∧ (b.2 = 6 ∨ (b.2 = 5 ∧ w5 = 65535)))
             | none => false) then
           inet_ntop4_text src12
         else hex_text w ++ format6 best w5 src12 ws (i + 1))

/-- Text of the sixteen bytes of an `in6_addr`, as glibc's `inet_ntop6` builds it. -/
def inet_ntop6_text (src : List Nat) : List Char :=
  let words := bytes_words src
  let best := best_run words
  format6 best (words.getD 5 0) (src.drop 12) words 0 ++
    (match best with
     | some b => if b.1 + b.2 = 8 then [':'] else []
     | none => [])

/-- The call `inet_ntop(af, src, dst, size)`: the text stored at `dst`, or `none` when the text
and its terminator need more than `size` bytes (`ENOSPC`, `dst` is left as it was). -/
def inet_ntop (text : List Char) (size : Nat) : Option (List Char) :=
  if text.length + 1 ≤ size then some text else none

/-! ## Data model -/

deriving instance DecidableEq for Except

/-- The part of an `inet_addr_t` (a `sockaddr_storage`) the program fills in. -/
structure inet_addr_t where
  ss_family : Nat := 0
  addr : List Nat := []
  port : Nat := 0
deriving DecidableEq

/-- An entry of the group table, `struct gr`; all fields are zero after the `memset`
at the start of `main`. -/
structure gr where
  source : Option (List Char) := none
  group : List Char := []
  grp : inet_addr_t := {}
  src : inet_addr_t := {}
  sd : Int := 0
  count : Nat := 0
deriving DecidableEq

instance : Inhabited gr := ⟨{}⟩

/-- Messages written with `ERROR` and `PRINT`. -/
inductive Msg where
  | wrong_socket (dst : List Char) (expected : List Char)
  | group_received (group : List Char) (count : Nat)
  | received_total (total : Nat)
deriving DecidableEq

/-! ## Group-spec expansion in `main` -/

/-- Lines 653-658: cut the argument at the first `+` and read the number after it. -/
def split_plus (arg : List Char) : List Char × Int :=
  match strchr arg '+' with
  | some pos => (arg.take pos, atoi (arg.drop (pos + 1)))
  | none => (arg, 1)

/-- Lines 660-665: cut what is left at the first `,` into source and group. -/
def split_comma (group : List Char) : Option (List Char) × List Char :=
  match strchr group ',' with
  | some pos => (some (group.take pos), group.drop (pos + 1))
  | none => (none, group)

/-- The bytes of a 32-bit value in network byte order (`htonl` stored to memory). -/
def htonl_bytes (v : Nat) : List Nat :=
  [v / 16777216 % 256, v / 65536 % 256, v / 256 % 256, v % 256]

/-- The 32-bit value of four bytes in network byte order (`ntohl` of the loaded word). -/
def ntohl_bytes (b : List Nat) : Nat :=
  b.getD 0 0 * 16777216 + b.getD 1 0 * 65536 + b.getD 2 0 * 256 + b.getD 3 0

/-- Lines 717-719: `step = ntohl(s_addr); step++; s_addr = htonl(step)` on a `uint32_t`. -/
def step4 (a : List Nat) : List Nat := htonl_bytes ((ntohl_bytes a + 1) % 2 ^ 32)

/-- Lines 708-712: the same step on the four bytes `s6_addr[12..15]` only. -/
def step6 (a : List Nat) : List Nat :=
  a.take 12 ++ htonl_bytes ((ntohl_bytes (a.drop 12) + 1) % 2 ^ 32)

/-- One pass of the body of the inner loop on the text `group` (lines 683-723): `none`
when `inet_pton` rejects the text, else the text `group` holds afterwards, which is
left as it was when `inet_ntop` fails. -/
def next_group (group : List Char) : Option (List Char) :=
  if (strchr group ':').isSome then
    match inet_pton6 group with
    | none => none
    | some a => some ((inet_ntop (inet_ntop6_text (step6 a)) SIZEOF_SOCKADDR_IN6).getD group)
  else
    match inet_pton4 group with
    | none => none
    | some a => some ((inet_ntop (inet_ntop4_text (step4 a)) SIZEOF_SOCKADDR_IN).getD group)

/-- The inner loop, lines 672-724, with `n` the passes `j < num` still allows; the
error is the exit status handed to `usage`. -/
def expand_loop (source : Option (List Char)) : Nat → List Char → List gr → Except Int (List gr)
  | 0, _, groups => .ok groups
  | n + 1, group, groups =>
    if groups.length < MAX_NUM_GROUPS then
      match next_group group with
      | none => .error 1
      | some group' =>
        expand_loop source n group' (groups ++ [{ source := source, group := group }])
    else .ok groups

/-- The body of the outer loop for one argument, lines 650-724. -/
def expand_spec (groups : List gr) (arg : List Char) : Except Int (List gr) :=
  let num := (split_plus arg).2
  let source := (split_comma (split_plus arg).1).1
  let group := (split_comma (split_plus arg).1).2
  if num < 1 ∨ num + (groups.length : Int) ≥ (MAX_NUM_GROUPS : Int) then .error 1
  else expand_loop source num.toNat group groups

/-- The outer loop over the arguments, lines 649-725. -/
def expand_specs : List (List Char) → List gr → Except Int (List gr)
  | [], groups => .ok groups
  | arg :: rest, groups =>
    match expand_spec groups arg with
    | .error code => .error code
    | .ok groups' => expand_specs rest groups'

/-- Lines 727-763 for one entry: fill in `grp` and, when there is a source, `src`;
the result of `inet_pton` is not looked at, a text it rejects leaves the zeroed
address. -/
def resolve (port : Nat) (g : gr) : gr :=
  if (strchr g.group ':').isSome then
    { g with
      grp := { ss_family := AF_INET6,
               addr := (inet_pton6 g.group).getD (List.replicate 16 0), port := port }
      src := match g.source with
        | some s => { ss_family := AF_INET6,
                      addr := (inet_pton6 s).getD (List.replicate 16 0), port := port }
        | none => g.src }
  else
    { g with
      grp := { ss_family := AF_INET,
               addr := (inet_pton4 g.group).getD (List.replicate 4 0), port := port }
      src := match g.source with
        | some s => { ss_family := AF_INET,
                      addr := (inet_pton4 s).getD (List.replicate 4 0), port := port }
        | none => g.src }

/-- The group table `main` hands to `loop()` for the positional arguments `args`
(lines 612-613 and 649-763), or the exit status of `return usage(1)`.  No socket exists
before `loop()` runs. -/
def main_groups (args : List (List Char)) (port : Nat) : Except Int (List gr) :=
  match expand_specs args (if args = [] then [{ group := DEFAULT_GROUP }] else []) with
  | .error code => .error code
  | .ok groups => .ok (groups.map (resolve port))

/-! ## The sender: `send_mcast` -/

/-- The text `snprintf` formats on line 269, `"%s%u, MC group %s ... count: %u"`. -/
def payload_text (pid : Nat) (group : List Char) (counter : Nat) : List Char :=
  MAGIC_KEY ++ dec_text pid ++ ", MC group ".toList ++ group ++ " ... count: ".toList ++
    dec_text counter

/-- The call `snprintf(buf, sizeof(buf), ...)`: at most `BUFSZ - 1` characters and a NUL are
stored at the start of `buf`; the bytes behind them stay. -/
def snprintf_buf (buf : List Char) (text : List Char) : List Char :=
  text.take (BUFSZ - 1) ++ NUL :: buf.drop ((text.take (BUFSZ - 1)).length + 1)

/-- The `static` variables of `send_mcast`. -/
structure SendState where
  counter : Nat := 1
  sd4 : Int := -1
  sd6 : Int := -1
deriving DecidableEq

/-- One call `sendto(sd, buf, sizeof(buf), 0, dest, len)`. -/
structure Sendto where
  sd : Int
  buf : List Char
  dest : inet_addr_t
deriving DecidableEq

/-- The loop of `send_mcast`, lines 264-273: the `sendto` calls made and the counter
afterwards. -/
def send_loop (pid : Nat) (sd4 sd6 : Int) : List gr → List Char → Nat → List Sendto × Nat
  | [], _, counter => ([], counter)
  | g :: gs, buf, counter =>
    (⟨if g.grp.ss_family = AF_INET then sd4 else sd6,
       snprintf_buf buf (payload_text pid g.group counter), g.grp⟩ ::
      (send_loop pid sd4 sd6 gs (snprintf_buf buf (payload_text pid g.group counter))
        ((counter + 1) % 2 ^ 32)).1,
     (send_loop pid sd4 sd6 gs (snprintf_buf buf (payload_text pid g.group counter))
        ((counter + 1) % 2 ^ 32)).2)

/-- One timer tick, `send_mcast`.  `open4` and `open6` are what `send_socket(AF_INET)`
and `send_socket(AF_INET6)` return when called on this tick: a descriptor, or `-1`
when the interface has no address of the family. -/
def send_mcast (pid : Nat) (groups : List gr) (open4 open6 : Int) (st : SendState) :
    SendState × List Sendto :=
  if (if st.sd4 = -1 then open4 else st.sd4) = -1 then
    ({ st with sd4 := -1 }, [])
  else if (if st.sd6 = -1 then open6 else st.sd6) = -1 then
    ({ st with sd4 := if st.sd4 = -1 then open4 else st.sd4, sd6 := -1 }, [])
  else
    ({ counter := (send_loop pid (if st.sd4 = -1 then open4 else st.sd4)
          (if st.sd6 = -1 then open6 else st.sd6) groups (List.replicate BUFSZ NUL) st.counter).2,
       sd4 := if st.sd4 = -1 then open4 else st.sd4,
       sd6 := if st.sd6 = -1 then open6 else st.sd6 },
     (send_loop pid (if st.sd4 = -1 then open4 else st.sd4)
        (if st.sd6 = -1 then open6 else st.sd6) groups (List.replicate BUFSZ NUL) st.counter).1)

/-! ## The packet validator: `find_dstaddr` and `recv_mcast` -/

/-- A control message of the received `msghdr`; `ipi_addr` are the bytes of the
`in_pktinfo` destination address in its data. -/
structure cmsghdr where
  cmsg_level : Nat
  cmsg_type : Nat
  ipi_addr : List Nat
deriving DecidableEq

/-- The destination address in the first `IP_PKTINFO` control message, if any. -/
def find_dstaddr : List cmsghdr → Option (List Nat)
  | [] => none
  | cmsg :: rest =>
    if cmsg.cmsg_level = IPPROTO_IP ∧ cmsg.cmsg_type = IP_PKTINFO then some cmsg.ipi_addr
    else find_dstaddr rest

/-- A datagram waiting on a socket: its payload and the control messages the kernel
attaches to it. -/
structure Received where
  data : List Char
  control : List cmsghdr
deriving DecidableEq

/-- The variable `pid` of `recv_mcast` (lines 346-351): the number `atoi` reads behind
the first `MAGIC_KEY` of the text, 0 when `strstr` finds none. -/
def sender_pid (text : List Char) : Int :=
  match strstr text MAGIC_KEY with
  | some pos => atoi (text.drop (pos + MAGIC_KEY.length))
  | none => 0

/-- What a call of `recv_mcast` leaves behind: its return value, the group table, the
messages logged, whether `progress()` ran, and the index of the store `buf[bytes] = 0`
when it was executed. -/
structure RecvOut where
  ret : Int
  groups : List gr
  log : List Msg
  progress : Bool
  terminator : Option Nat
deriving DecidableEq

/-- The function `recv_mcast(id)`.  `msg` is what `recvmsg` finds on the socket, `none` when it
returns a negative value.  `recvmsg` stores at most `sizeof(buf) = BUFSZ` bytes of the
payload and returns their number, `bytes`.  The store `buf[bytes] = 0` ends the string
behind the bytes received; at `bytes = BUFSZ` its target is the byte behind the array. -/
def recv_mcast (getpid : Int) (groups : List gr) (id : Nat) (msg : Option Received) : RecvOut :=
  match msg with
  | none => ⟨-1, groups, [], false, none⟩
  | some m =>
    match find_dstaddr m.control with
    | none => ⟨-1, groups, [], false, none⟩
    | some dstaddr =>
      if sender_pid (c_str (m.data.take BUFSZ)) ≠ getpid then
        if inet_ntop4_text dstaddr ≠ (groups.getD id default).group then
          ⟨-1, groups, [Msg.wrong_socket (inet_ntop4_text dstaddr) (groups.getD id default).group],
            false, some (m.data.take BUFSZ).length⟩
        else
          ⟨0, groups.set id { groups.getD id default with
                count := ((groups.getD id default).count + 1) % SIZE_T_MOD },
            [], true, some (m.data.take BUFSZ).length⟩
      else ⟨-1, groups, [], false, some (m.data.take BUFSZ).length⟩

/-! ## Statistics: `show_stats` -/

/-- The loop of `show_stats`, lines 377-380, on a `size_t` total. -/
def show_stats_loop : List gr → List Msg → Nat → List Msg × Nat
  | [], log, total_count => (log, total_count)
  | g :: gs, log, total_count =>
    show_stats_loop gs (log ++ [Msg.group_received g.group g.count])
      ((total_count + g.count) % SIZE_T_MOD)

/-- Lines 371-389: the messages `show_stats` prints for the table. -/
def show_stats (join : Int) (groups : List gr) : List Msg :=
  if join ≠ 0 then
    if groups.length > 1 then
      (show_stats_loop groups [] 0).1 ++ [Msg.received_total (show_stats_loop groups [] 0).2]
    else [Msg.received_total (groups.getD 0 default).count]
  else []

/-! ## The polling loop of `loop` -/

/-- What `poll` reports: a negative return, a timeout, or for every socket whether it
is readable (`revents`) and then what `recvmsg` finds there. -/
inductive Poll where
  | failed
  | timeout
  | ready (revents : List (Option (Option Received)))

/-- The variables the polling loop works on; `polling` is false once the inner loop
has been left. -/
structure LoopState where
  groups : List gr
  running : Bool
  polling : Bool
  log : List Msg
deriving DecidableEq

/-- Lines 442-447: `recv_mcast(i)` for every socket with `revents` set, from `i` on. -/
def service_ready (getpid : Int) :
    List (Option (Option Received)) → Nat → List gr → List Msg → List gr × List Msg
  | [], _, groups, log => (groups, log)
  | none :: rest, i, groups, log => service_ready getpid rest (i + 1) groups log
  | some msg :: rest, i, groups, log =>
    if i < groups.length then
      service_ready getpid rest (i + 1) (recv_mcast getpid groups i msg).groups
        (log ++ (recv_mcast getpid groups i msg).log)
    else (groups, log)

/-- Lines 450-453: `total = count * group_num` less every group's count, in `size_t`. -/
def remaining_total (count : Nat) (groups : List gr) : Nat :=
  groups.foldl (fun total g => (total + (SIZE_T_MOD - g.count % SIZE_T_MOD)) % SIZE_T_MOD)
    (count * groups.length % SIZE_T_MOD)

/-- One pass of the inner `while (running)` loop, lines 418-462. -/
def poll_round (getpid : Int) (count : Nat) (restart : Int) (st : LoopState) : Poll → LoopState
  | .failed => st
  | .timeout =>
    if restart = 0 then st
    else { st with groups := st.groups.map fun g => { g with sd := 0 }, polling := false }
  | .ready revents =>
    if 0 < count ∧ remaining_total count (service_ready getpid revents 0 st.groups st.log).1 ≤ 0 then
      { groups := (service_ready getpid revents 0 st.groups st.log).1, running := false,
        polling := false, log := (service_ready getpid revents 0 st.groups st.log).2 }
    else
      { st with groups := (service_ready getpid revents 0 st.groups st.log).1,
                log := (service_ready getpid revents 0 st.groups st.log).2 }

/-- The inner loop run over the successive results of `poll`. -/
def poll_loop (getpid : Int) (count : Nat) (restart : Int) : List Poll → LoopState → LoopState
  | [], st => st
  | ev :: evs, st =>
    if st.running ∧ st.polling then poll_loop getpid count restart evs
      (poll_round getpid count restart st ev)
    else st

/-- Sum of the received counters of the table. -/
def total_received (groups : List gr) : Nat := (groups.map fun g => g.count).sum

/-! ## Concrete inputs used in the evaluations below -/

/-- The table `main` builds for the arguments `225.1.2.3+2` with the default port. -/
def two_groups : List gr :=
  [{ group := "225.1.2.3".toList, grp := ⟨AF_INET, [225, 1, 2, 3], DEFAULT_PORT⟩ },
   { group := "225.1.2.4".toList, grp := ⟨AF_INET, [225, 1, 2, 4], DEFAULT_PORT⟩ }]

/-- The datagram the `send_mcast` of process `pid` builds for `group` first in a tick,
as it arrives with the destination address `dst` in its `IP_PKTINFO` control message. -/
def probe (pid : Nat) (group : List Char) (dst : List Nat) : Received :=
  ⟨snprintf_buf (List.replicate BUFSZ NUL) (payload_text pid group 1),
   [⟨IPPROTO_IP, IP_PKTINFO, dst⟩]⟩

/-- Two results of `poll` for `two_groups`: first only the socket of 225.1.2.3 is
readable, then both are; every datagram comes from process 4321 and carries the group
of its socket as destination. -/
def overshoot_rounds : List Poll :=
  [Poll.ready [some (some (probe 4321 "225.1.2.3".toList [225, 1, 2, 3])), none],
   Poll.ready [some (some (probe 4321 "225.1.2.3".toList [225, 1, 2, 3])),
               some (some (probe 4321 "225.1.2.4".toList [225, 1, 2, 4]))]]

/-! ## Description of specs and auxiliary texts -/

/-- The text of a group spec `[SOURCE,]GROUP[+NUM]`. -/
def spec_text (source : Option (List Char)) (group : List Char) (num : Option (List Char)) :
    List Char :=
  (match source with
   | some s => s ++ [',']
   | none => []) ++ group ++
  (match num with
   | some n => '+' :: n
   | none => [])

/-- The number of entries a spec asks for: what `atoi` reads behind `+`, 1 without `+NUM`. -/
def spec_num (num : Option (List Char)) : Int :=
  match num with
  | some n => atoi n
  | none => 1

/-- The text of the finished octets of a dotted quad, each followed by its dot. -/
def dotted (done : List Nat) : List Char := done.flatMap fun b => u8_text b ++ ['.']

/-- The address `k` steps behind the IPv6 address `a`, each step made as lines 708-712
make it: on the four bytes `s6_addr[12..15]`, modulo `2 ^ 32`. -/
def addr6 (a : List Nat) (k : Nat) : List Nat :=
  a.take 12 ++ htonl_bytes ((ntohl_bytes (a.drop 12) + k) % 2 ^ 32)

/-- The value of a byte array read as one number in network byte order. -/
def be_value (a : List Nat) : Nat := a.foldl (fun v b => v * 256 + b) 0

/-- The text of the `k`-th entry of an IPv6 spec with group text `group` at address `a`:
the text given for `k = 0`, the text `inet_ntop` prints afterwards. -/
def text6 (group : List Char) (a : List Nat) (k : Nat) : List Char :=
  if k = 0 then group else inet_ntop6_text (addr6 a k)

/-- The text of words that each follow a colon, `:x:y:z`. -/
def colon_hex (vs : List Nat) : List Char := vs.flatMap fun v => ':' :: hex_text v

/-- The words of `ws` from `r.1` on, `r.2` of them, exist and are zero. -/
def zero_run (ws : List Nat) (r : Nat × Nat) : Prop :=
  r.1 + r.2 ≤ ws.length ∧ ∀ k, r.1 ≤ k → k < r.1 + r.2 → ws[k]? = some 0

/-- The run makes `inet_ntop6` print the last two words as a dotted quad. -/
def embedded_ipv4 (r : Nat × Nat) (w5 : Nat) : Prop :=
  r.1 = 0 ∧ (r.2 = 6 ∨ (r.2 = 5 ∧ w5 = 65535))

/-- A group spec taken apart into its source, its group and the text behind `+`. -/
structure Spec where
  source : Option (List Char)
  group : List Char
  num : Option (List Char)

/-- The check of line 667 made spec after spec, from a table of `group_num` entries. -/
def passes_limit : List Spec → Nat → Bool
  | [], _ => true
  | s :: rest, group_num =>
    decide (1 ≤ spec_num s.num ∧ spec_num s.num + (group_num : Int) < (MAX_NUM_GROUPS : Int)) &&
      passes_limit rest (group_num + (spec_num s.num).toNat)

/-- The sum of the numbers of the specs. -/
def total_count (specs : List Spec) : Nat := (specs.map fun s => (spec_num s.num).toNat).sum

/-- The group text the two cuts of lines 653-665 leave of an argument. -/
def group_of (arg : List Char) : List Char := (split_comma (split_plus arg).1).2

/-- What `inet_pton` returns for the family inferred from the text (lines 684-696). -/
def parse_group (group : List Char) : Option (List Nat) :=
  if (strchr group ':').isSome then inet_pton6 group else inet_pton4 group

/-! ## Characters and `strchr` -/

theorem digit_char_toNat (d : Nat) (h : d < 10) : (digit_char d).toNat = 48 + d := by
  interval_cases d <;> rfl

theorem isdigit_digit_char (d : Nat) (h : d < 10) : isdigit (digit_char d) = true := by
  simp only [isdigit, digit_char_toNat d h, decide_eq_true_eq]
  omega

theorem digit_char_sub (d : Nat) (h : d < 10) : (digit_char d).toNat - 48 = d := by
  simp [digit_char_toNat d h]

theorem digit_char_of_isdigit (c : Char) (h : isdigit c = true) :
    digit_char (c.toNat - 48) = c := by
  simp only [isdigit, decide_eq_true_eq] at h
  have : 48 + (c.toNat - 48) = c.toNat := by omega
  rw [digit_char, this, Char.ofNat_toNat]

theorem isdigit_sub_lt (c : Char) (h : isdigit c = true) : c.toNat - 48 < 10 := by
  simp only [isdigit, decide_eq_true_eq] at h
  omega

theorem strchr_eq_none (s : List Char) (c : Char) (h : c ∉ s) : strchr s c = none := by
  induction s with
  | nil => rfl
  | cons x xs ih =>
    simp only [List.mem_cons, not_or] at h
    simp [strchr, Ne.symm h.1, ih h.2]

theorem strchr_append (s t : List Char) (c : Char) (h : c ∉ s) :
    strchr (s ++ c :: t) c = some s.length := by
  induction s with
  | nil => simp [strchr]
  | cons x xs ih =>
    simp only [List.mem_cons, not_or] at h
    simp [strchr, Ne.symm h.1, ih h.2]

/-! ## `inet_pton` and `inet_ntop` for IPv4 invert each other -/

theorem u8_text_snoc (tp v : Nat) (h1 : 1 ≤ tp) (hv : v < 10) (h255 : tp * 10 + v ≤ 255) :
    u8_text (tp * 10 + v) = u8_text tp ++ [digit_char v] := by
  unfold u8_text
  by_cases h10 : tp < 10
  · have e1 : (tp * 10 + v) / 10 = tp := by omega
    have e2 : (tp * 10 + v) % 10 = v := by omega
    have n1 : ¬ tp * 10 + v < 10 := by omega
    have n2 : tp * 10 + v < 100 := by omega
    simp [h10, n1, n2, e1, e2]
  · have e1 : (tp * 10 + v) / 100 = tp / 10 := by omega
    have e2 : (tp * 10 + v) / 10 % 10 = tp % 10 := by omega
    have e3 : (tp * 10 + v) % 10 = v := by omega
    have n1 : ¬ tp * 10 + v < 10 := by omega
    have n2 : ¬ tp * 10 + v < 100 := by omega
    have n3 : tp < 100 := by omega
    simp [h10, n1, n2, n3, e1, e2, e3]

theorem inet_ntop4_text_snoc (done : List Nat) (tp : Nat) :
    inet_ntop4_text (done ++ [tp]) = dotted done ++ u8_text tp := by
  induction done with
  | nil => simp [inet_ntop4_text, dotted]
  | cons b bs ih =>
    cases bs with
    | nil => simp [inet_ntop4_text, dotted]
    | cons c cs =>
      have ih2 : inet_ntop4_text (c :: (cs ++ [tp])) = dotted (c :: cs) ++ u8_text tp := ih
      show u8_text b ++ '.' :: inet_ntop4_text (c :: (cs ++ [tp])) = _
      rw [ih2]
      simp [dotted]

theorem inet_pton4_loop_digit (d : Nat) (hd : d < 10) (src : List Char) (done : List Nat)
    (tp : Nat) (saw : Bool) (k : Nat) :
    inet_pton4_loop (digit_char d :: src) done tp saw k =
      if (saw && tp == 0) = true then none
      else if tp * 10 + d > 255 then none
      else if (!saw) = true then
        if k + 1 > 4 then none else inet_pton4_loop src done (tp * 10 + d) true (k + 1)
      else inet_pton4_loop src done (tp * 10 + d) saw k := by
  simp [inet_pton4_loop, isdigit_digit_char d hd, digit_char_sub d hd]

theorem inet_pton4_loop_u8 (b : Nat) (hb : b < 256) (rest : List Char) (done : List Nat)
    (k : Nat) (hk : k < 4) :
    inet_pton4_loop (u8_text b ++ rest) done 0 false k =
      inet_pton4_loop rest done b true (k + 1) := by
  unfold u8_text
  by_cases h10 : b < 10
  · have n : ¬ k + 1 > 4 := by omega
    have n2 : ¬ b > 255 := by omega
    simp [h10, inet_pton4_loop_digit b h10, n, n2]
  · by_cases h100 : b < 100
    · have d1 : b / 10 < 10 := by omega
      have d2 : b % 10 < 10 := by omega
      have n : ¬ k + 1 > 4 := by omega
      have n2 : ¬ b / 10 > 255 := by omega
      have n7 : ¬ 255 < b := by omega
      have n3 : ¬ b / 10 * 10 + b % 10 > 255 := by omega
      have n4 : ¬ b / 10 = 0 := by omega
      have e : b / 10 * 10 + b % 10 = b := by omega
      simp [h10, h100, inet_pton4_loop_digit _ d1, inet_pton4_loop_digit _ d2, n, n2, n3, n4, n7, e]
    · have d1 : b / 100 < 10 := by omega
      have d2 : b / 10 % 10 < 10 := by omega
      have d3 : b % 10 < 10 := by omega
      have n : ¬ k + 1 > 4 := by omega
      have n2 : ¬ b / 100 > 255 := by omega
      have n7 : ¬ 255 < b := by omega
      have n3 : ¬ b / 100 * 10 + b / 10 % 10 > 255 := by omega
      have n4 : ¬ b / 100 = 0 := by omega
      have n5 : ¬ (b / 100 * 10 + b / 10 % 10) * 10 + b % 10 > 255 := by omega
      have n6 : ¬ b / 100 * 10 + b / 10 % 10 = 0 := by omega
      have e : (b / 100 * 10 + b / 10 % 10) * 10 + b % 10 = b := by omega
      simp [h10, h100, inet_pton4_loop_digit _ d1, inet_pton4_loop_digit _ d2,
        inet_pton4_loop_digit _ d3, n, n2, n3, n4, n5, n6, n7, e]

theorem inet_pton4_loop_dot (rest : List Char) (done : List Nat) (tp k : Nat) (hk : k ≠ 4) :
    inet_pton4_loop ('.' :: rest) done tp true k = inet_pton4_loop rest (done ++ [tp]) 0 false k := by
  have h : isdigit '.' = false := by decide
  simp [inet_pton4_loop, h, hk]

/-- Parsing the text `inet_ntop` prints for four octets gives the octets back. -/
theorem inet_pton4_ntop4 (b0 b1 b2 b3 : Nat) (h0 : b0 < 256) (h1 : b1 < 256) (h2 : b2 < 256)
    (h3 : b3 < 256) :
    inet_pton4 (inet_ntop4_text [b0, b1, b2, b3]) = some [b0, b1, b2, b3] := by
  simp only [inet_pton4, inet_ntop4_text]
  rw [inet_pton4_loop_u8 b0 h0 _ _ 0 (by omega), inet_pton4_loop_dot _ _ _ _ (by omega),
    inet_pton4_loop_u8 b1 h1 _ _ 1 (by omega), inet_pton4_loop_dot _ _ _ _ (by omega),
    inet_pton4_loop_u8 b2 h2 _ _ 2 (by omega), inet_pton4_loop_dot _ _ _ _ (by omega)]
  have := inet_pton4_loop_u8 b3 h3 [] [b0, b1, b2] 3 (by omega)
  rw [List.append_nil] at this
  simp only [List.nil_append, List.cons_append, Nat.reduceAdd]
  rw [this]
  simp [inet_pton4_loop]

/-- A text `inet_pton4` accepts is the text `inet_ntop` prints for the octets it
returns; there are four of them, each below 256. -/
theorem inet_pton4_loop_sound (s : List Char) :
    ∀ (done : List Nat) (tp : Nat) (saw : Bool) (k : Nat) (bs : List Nat),
      k ≤ 4 → (saw = false → tp = 0 ∧ k < 4) → tp < 256 →
      done.length + (if saw = true then 1 else 0) = k → (∀ b ∈ done, b < 256) →
      inet_pton4_loop s done tp saw k = some bs →
      dotted done ++ (if saw = true then u8_text tp else []) ++ s = inet_ntop4_text bs ∧
        bs.length = 4 ∧ ∀ b ∈ bs, b < 256 := by
  induction s with
  | nil =>
    intro done tp saw k bs hk hsaw htp hlen hdone h
    simp only [inet_pton4_loop] at h
    by_cases hk4 : k < 4
    · simp [hk4] at h
    · simp only [hk4, if_false, Option.some.injEq] at h
      cases saw with
      | false => exact absurd (hsaw rfl).2 hk4
      | true =>
        subst h
        refine ⟨?_, ?_, ?_⟩
        · simp [inet_ntop4_text_snoc]
        · simp only [if_true] at hlen
          simp only [List.length_append, List.length_singleton]
          omega
        · intro b hb
          rcases List.mem_append.mp hb with hb | hb
          · exact hdone b hb
          · simp only [List.mem_singleton] at hb
            omega
  | cons ch s ih =>
    intro done tp saw k bs hk hsaw htp hlen hdone h
    by_cases hd : isdigit ch = true
    · have hv := isdigit_sub_lt ch hd
      have hch := digit_char_of_isdigit ch hd
      rw [← hch, inet_pton4_loop_digit _ hv] at h
      cases saw with
      | true =>
        by_cases htp0 : tp = 0
        · simp [htp0] at h
        · by_cases hnew : tp * 10 + (ch.toNat - 48) > 255
          · simp [htp0, hnew] at h
          · simp only [Bool.true_and, beq_iff_eq, htp0, if_false, hnew, Bool.not_true,
              Bool.false_eq_true] at h
            have := ih done (tp * 10 + (ch.toNat - 48)) true k bs hk (by simp) (by omega)
              hlen hdone h
            refine ⟨?_, this.2⟩
            rw [← this.1, u8_text_snoc tp _ (by omega) hv (by omega), hch]
            simp
      | false =>
        obtain ⟨htp0, hk4⟩ := hsaw rfl
        subst htp0
        have n1 : ¬ ch.toNat - 48 > 255 := by omega
        have n2 : ¬ k + 1 > 4 := by omega
        simp only [Bool.false_and, Bool.false_eq_true, if_false, Nat.zero_mul, Nat.zero_add, n1,
          Bool.not_false, if_true, n2] at h
        simp only [Bool.false_eq_true, if_false, Nat.add_zero] at hlen
        have := ih done (ch.toNat - 48) true (k + 1) bs (by omega) (by simp) (by omega)
          (by simp [hlen]) hdone h
        refine ⟨?_, this.2⟩
        rw [← this.1]
        have hu : u8_text (ch.toNat - 48) = [ch] := by
          simp [u8_text, hv, hch]
        simp [hu]
    · have hd2 : isdigit ch = false := by simpa using hd
      simp only [inet_pton4_loop, hd2, Bool.false_eq_true, if_false] at h
      by_cases hdot : (ch == '.' && saw) = true
      · simp only [hdot, if_true] at h
        simp only [Bool.and_eq_true, beq_iff_eq] at hdot
        obtain ⟨hc, hs⟩ := hdot
        subst hc hs
        by_cases hk4 : k = 4
        · simp [hk4] at h
        · simp only [beq_iff_eq, hk4, if_false] at h
          simp only [if_true] at hlen
          have := ih (done ++ [tp]) 0 false k bs hk (by intro _; exact ⟨rfl, by omega⟩)
            (by omega) (by simp; omega)
            (by
              intro b hb
              rcases List.mem_append.mp hb with hb | hb
              · exact hdone b hb
              · simp only [List.mem_singleton] at hb
                omega) h
          refine ⟨?_, this.2⟩
          rw [← this.1]
          simp [dotted]
      · simp [hdot] at h

theorem inet_pton4_sound (s : List Char) (a : List Nat) (h : inet_pton4 s = some a) :
    s = inet_ntop4_text a ∧ a.length = 4 ∧ ∀ b ∈ a, b < 256 := by
  have := inet_pton4_loop_sound s [] 0 false 0 a (by omega) (by intro _; exact ⟨rfl, by omega⟩)
    (by omega) (by simp) (by simp) h
  simpa [dotted] using this

/-! ## Byte order -/

theorem htonl_ntohl (a : List Nat) (hlen : a.length = 4) (hb : ∀ b ∈ a, b < 256) :
    htonl_bytes (ntohl_bytes a % 2 ^ 32) = a := by
  match a, hlen with
  | [b0, b1, b2, b3], _ =>
    have h0 : b0 < 256 := hb b0 (by simp)
    have h1 : b1 < 256 := hb b1 (by simp)
    have h2 : b2 < 256 := hb b2 (by simp)
    have h3 : b3 < 256 := hb b3 (by simp)
    simp only [htonl_bytes, ntohl_bytes, List.getD_cons_zero, List.getD_cons_succ]
    have e0 : (b0 * 16777216 + b1 * 65536 + b2 * 256 + b3) % 2 ^ 32 / 16777216 % 256 = b0 := by
      omega
    have e1 : (b0 * 16777216 + b1 * 65536 + b2 * 256 + b3) % 2 ^ 32 / 65536 % 256 = b1 := by
      omega
    have e2 : (b0 * 16777216 + b1 * 65536 + b2 * 256 + b3) % 2 ^ 32 / 256 % 256 = b2 := by
      omega
    have e3 : (b0 * 16777216 + b1 * 65536 + b2 * 256 + b3) % 2 ^ 32 % 256 = b3 := by
      omega
    rw [e0, e1, e2, e3]

theorem ntohl_htonl (v : Nat) (hv : v < 2 ^ 32) : ntohl_bytes (htonl_bytes v) = v := by
  simp only [htonl_bytes, ntohl_bytes, List.getD_cons_zero, List.getD_cons_succ]
  omega

theorem ntohl_lt (a : List Nat) (hlen : a.length = 4) (hb : ∀ b ∈ a, b < 256) :
    ntohl_bytes a < 2 ^ 32 := by
  match a, hlen with
  | [b0, b1, b2, b3], _ =>
    have h0 : b0 < 256 := hb b0 (by simp)
    have h1 : b1 < 256 := hb b1 (by simp)
    have h2 : b2 < 256 := hb b2 (by simp)
    have h3 : b3 < 256 := hb b3 (by simp)
    simp only [ntohl_bytes, List.getD_cons_zero, List.getD_cons_succ]
    omega

theorem step4_htonl (v : Nat) (hv : v < 2 ^ 32) :
    step4 (htonl_bytes v) = htonl_bytes ((v + 1) % 2 ^ 32) := by
  rw [step4, ntohl_htonl v hv]

/-! ## The text of an IPv4 address -/

theorem u8_text_length (b : Nat) : (u8_text b).length ≤ 3 := by
  unfold u8_text
  split
  · simp
  · split <;> simp

theorem u8_text_isdigit (b : Nat) (hb : b < 256) : ∀ c ∈ u8_text b, isdigit c = true := by
  intro c hc
  unfold u8_text at hc
  split at hc
  · simp only [List.mem_singleton] at hc
    subst hc
    exact isdigit_digit_char _ (by omega)
  · split at hc
    · simp only [List.mem_cons, List.mem_singleton, List.not_mem_nil, or_false] at hc
      rcases hc with hc | hc <;> subst hc <;> exact isdigit_digit_char _ (by omega)
    · simp only [List.mem_cons, List.mem_singleton, List.not_mem_nil, or_false] at hc
      rcases hc with hc | hc | hc <;> subst hc <;> exact isdigit_digit_char _ (by omega)

theorem htonl_text_length (v : Nat) : (inet_ntop4_text (htonl_bytes v)).length ≤ 15 := by
  simp only [htonl_bytes, inet_ntop4_text, List.length_append, List.length_cons]
  have h0 := u8_text_length (v / 16777216 % 256)
  have h1 := u8_text_length (v / 65536 % 256)
  have h2 := u8_text_length (v / 256 % 256)
  have h3 := u8_text_length (v % 256)
  omega

theorem htonl_text_chars (v : Nat) :
    ∀ c ∈ inet_ntop4_text (htonl_bytes v), isdigit c = true ∨ c = '.' := by
  intro c hc
  simp only [htonl_bytes, inet_ntop4_text, List.mem_append, List.mem_cons] at hc
  rcases hc with hc | hc | hc | hc | hc | hc | hc
  · exact Or.inl (u8_text_isdigit _ (by omega) c hc)
  · exact Or.inr hc
  · exact Or.inl (u8_text_isdigit _ (by omega) c hc)
  · exact Or.inr hc
  · exact Or.inl (u8_text_isdigit _ (by omega) c hc)
  · exact Or.inr hc
  · exact Or.inl (u8_text_isdigit _ (by omega) c hc)

theorem htonl_text_not_mem (v : Nat) (c : Char) (hd : isdigit c = false) (hdot : c ≠ '.') :
    c ∉ inet_ntop4_text (htonl_bytes v) := by
  intro hc
  rcases htonl_text_chars v c hc with h | h
  · rw [hd] at h
    exact Bool.noConfusion h
  · exact hdot h

theorem htonl_lt (v : Nat) : ∀ b ∈ htonl_bytes v, b < 256 := by
  intro b hb
  simp only [htonl_bytes, List.mem_cons, List.mem_singleton, List.not_mem_nil, or_false] at hb
  rcases hb with hb | hb | hb | hb <;> omega

/-- On the text of an IPv4 address the body of the inner loop leaves the text of the
next address. -/
theorem next_group_ipv4 (v : Nat) (hv : v < 2 ^ 32) :
    next_group (inet_ntop4_text (htonl_bytes v)) =
      some (inet_ntop4_text (htonl_bytes ((v + 1) % 2 ^ 32))) := by
  have hcolon : strchr (inet_ntop4_text (htonl_bytes v)) ':' = none :=
    strchr_eq_none _ _ (htonl_text_not_mem v ':' (by decide) (by decide))
  have hp : inet_pton4 (inet_ntop4_text (htonl_bytes v)) = some (htonl_bytes v) := by
    simp only [htonl_bytes]
    exact inet_pton4_ntop4 _ _ _ _ (by omega) (by omega) (by omega) (by omega)
  have hfit := htonl_text_length ((v + 1) % 2 ^ 32)
  simp only [next_group, hcolon, Option.isSome_none, Bool.false_eq_true, if_false, hp,
    step4_htonl v hv, inet_ntop, SIZEOF_SOCKADDR_IN]
  rw [if_pos (by omega)]
  rfl

/-- The inner loop on the text of the IPv4 address of value `v`: it appends the `n`
consecutive addresses from `v` on. -/
theorem expand_loop_ipv4 (source : Option (List Char)) (n : Nat) :
    ∀ (v : Nat) (groups : List gr), v < 2 ^ 32 → groups.length + n ≤ MAX_NUM_GROUPS →
      expand_loop source n (inet_ntop4_text (htonl_bytes v)) groups =
        Except.ok (groups ++ (List.range n).map fun k =>
          { source := source, group := inet_ntop4_text (htonl_bytes ((v + k) % 2 ^ 32)) }) := by
  induction n with
  | zero => intro v groups _ _; simp [expand_loop]
  | succ n ih =>
    intro v groups hv hlen
    have hlt : groups.length < MAX_NUM_GROUPS := by omega
    simp only [expand_loop, hlt, if_true, next_group_ipv4 v hv]
    rw [ih ((v + 1) % 2 ^ 32) _ (Nat.mod_lt _ (by norm_num))
      (by simp only [List.length_append, List.length_singleton]; omega)]
    simp only [List.range_succ_eq_map, List.map_cons, List.map_map, List.append_assoc,
      List.singleton_append, Nat.add_zero, Nat.mod_eq_of_lt hv]
    congr 3
    apply List.map_congr_left
    intro k _
    simp only [Function.comp_apply]
    have : ((v + 1) % 2 ^ 32 + k) % 2 ^ 32 = (v + (k + 1)) % 2 ^ 32 := by omega
    rw [this]

/-! ## Splitting a spec -/

theorem take_length_append (s t : List Char) : (s ++ t).take s.length = s := by
  induction s with
  | nil => simp
  | cons x xs ih => simp [ih]

theorem drop_length_succ (s t : List Char) (c : Char) :
    (s ++ c :: t).drop (s.length + 1) = t := by
  induction s with
  | nil => simp
  | cons x xs ih => simp [ih]

theorem split_plus_spec_text (front : List Char) (num : Option (List Char))
    (h : '+' ∉ front) :
    split_plus (front ++ (match num with
      | some n => '+' :: n
      | none => [])) = (front, spec_num num) := by
  cases num with
  | none =>
    simp only [List.append_nil, split_plus, strchr_eq_none _ _ h, spec_num]
  | some n =>
    simp only [split_plus, strchr_append _ _ _ h, spec_num, take_length_append,
      drop_length_succ]

theorem split_comma_source (s group : List Char) (h : ',' ∉ s) :
    split_comma (s ++ [','] ++ group) = (some s, group) := by
  have e : s ++ [','] ++ group = s ++ ',' :: group := by simp
  rw [e]
  simp only [split_comma, strchr_append _ _ _ h, take_length_append, drop_length_succ]

theorem split_comma_plain (group : List Char) (h : ',' ∉ group) :
    split_comma group = (none, group) := by
  simp only [split_comma, strchr_eq_none _ _ h]

/-- The two cuts of lines 653-665 take a spec `[SOURCE,]GROUP[+NUM]` apart into its
source, its group and its number, when neither `+` nor `,` occurs in source and group. -/
theorem split_spec_text (source : Option (List Char)) (group : List Char)
    (num : Option (List Char))
    (hs : ∀ s, source = some s → '+' ∉ s ∧ ',' ∉ s) (hg : '+' ∉ group ∧ ',' ∉ group) :
    (split_plus (spec_text source group num)).2 = spec_num num ∧
    split_comma (split_plus (spec_text source group num)).1 = (source, group) := by
  cases source with
  | none =>
    have := split_plus_spec_text group num hg.1
    simp only [spec_text, List.nil_append]
    rw [this]
    exact ⟨rfl, split_comma_plain group hg.2⟩
  | some s =>
    have hfront : '+' ∉ s ++ [','] ++ group := by
      simp only [List.mem_append, List.mem_singleton, not_or]
      exact ⟨⟨(hs s rfl).1, by decide⟩, hg.1⟩
    have := split_plus_spec_text (s ++ [','] ++ group) num hfront
    simp only [spec_text]
    rw [this]
    exact ⟨rfl, split_comma_source s group (hs s rfl).2⟩

/-- The entries of a spec `[S,]G+N` whose group `G` is a valid IPv4 literal and whose `N` is
accepted (at least 1 and, with the entries already in the table, below the limit of
line 667), the entries appended are, for `k = 0 .. N-1` in order, the source `S` (none
when the spec has no `S,`) with the text of the address of value `value(G) + k` modulo
`2 ^ 32`. -/
theorem ipv4_spec_entries (groups : List gr) (source : Option (List Char)) (group : List Char)
    (num : Option (List Char)) (a : List Nat)
    (hs : ∀ s, source = some s → '+' ∉ s ∧ ',' ∉ s)
    (hg : inet_pton4 group = some a)
    (h1 : 1 ≤ spec_num num)
    (hmax : spec_num num + (groups.length : Int) < (MAX_NUM_GROUPS : Int)) :
    expand_spec groups (spec_text source group num) =
      Except.ok (groups ++ (List.range (spec_num num).toNat).map fun k =>
        { source := source,
          group := inet_ntop4_text (htonl_bytes ((ntohl_bytes a + k) % 2 ^ 32)) }) := by
  obtain ⟨htext, hlen, hb⟩ := inet_pton4_sound group a hg
  have hv := ntohl_lt a hlen hb
  have hcanon : group = inet_ntop4_text (htonl_bytes (ntohl_bytes a)) := by
    have := htonl_ntohl a hlen hb
    rw [Nat.mod_eq_of_lt hv] at this
    rw [this]
    exact htext
  have hplus : '+' ∉ group := by
    rw [hcanon]
    exact htonl_text_not_mem _ '+' (by decide) (by decide)
  have hcomma : ',' ∉ group := by
    rw [hcanon]
    exact htonl_text_not_mem _ ',' (by decide) (by decide)
  obtain ⟨hnum, hsplit⟩ := split_spec_text source group num hs ⟨hplus, hcomma⟩
  have hguard : ¬ (spec_num num < 1 ∨ spec_num num + (groups.length : Int) ≥ (MAX_NUM_GROUPS : Int)) := by
    omega
  simp only [expand_spec, hnum, hsplit, hguard, if_false]
  rw [hcanon]
  have := expand_loop_ipv4 source (spec_num num).toNat (ntohl_bytes a) groups hv (by omega)
  rw [this]

/-- C2: for a spec `[S,]G+N` whose group `G` is a valid IPv4 literal and whose `N` is
accepted (at least 1 and, with the entries already in the table, below the limit of
line 667), the entries appended are, for `k = 0 .. N-1` in order, the source `S` (none
when the spec has no `S,`) with the text of the address of value `value(G) + k` modulo
`2 ^ 32`. -/
theorem expand_spec_ipv4 (groups : List gr) (source : Option (List Char)) (group : List Char)
    (num : Option (List Char)) (a : List Nat)
    (hs : ∀ s, source = some s → '+' ∉ s ∧ ',' ∉ s)
    (hg : inet_pton4 group = some a)
    (h1 : 1 ≤ spec_num num)
    (hmax : spec_num num + (groups.length : Int) < (MAX_NUM_GROUPS : Int)) :
    expand_spec groups (spec_text source group num) =
      Except.ok (groups ++ (List.range (spec_num num).toNat).map fun k =>
        { source := source,
          group := inet_ntop4_text (htonl_bytes ((ntohl_bytes a + k) % 2 ^ 32)) }) :=
  ipv4_spec_entries groups source group num a hs hg h1 hmax

/-- Witness of `expand_spec_ipv4`: the scenarios `225.1.2.3+3` and `10.0.0.5,225.1.2.3`. -/
theorem expand_spec_ipv4_witness :
    expand_spec [] "225.1.2.3+3".toList =
      Except.ok [{ group := "225.1.2.3".toList }, { group := "225.1.2.4".toList },
        { group := "225.1.2.5".toList }] ∧
    expand_spec [] "10.0.0.5,225.1.2.3".toList =
      Except.ok [{ source := some "10.0.0.5".toList, group := "225.1.2.3".toList }] :=
  ⟨expand_spec_ipv4 [] none "225.1.2.3".toList (some "3".toList) [225, 1, 2, 3]
      (by intro s h; cases h) (by decide) (by decide) (by decide),
   expand_spec_ipv4 [] (some "10.0.0.5".toList) "225.1.2.3".toList none [225, 1, 2, 3]
      (by intro s h; cases h; decide) (by decide) (by decide) (by decide)⟩

/-! ## IPv6 expansion -/

theorem strchr_isSome (s : List Char) (c : Char) (h : c ∈ s) : (strchr s c).isSome = true := by
  induction s with
  | nil => cases h
  | cons x xs ih =>
    by_cases hx : x = c
    · simp [strchr, hx]
    · have : c ∈ xs := by
        rcases List.mem_cons.mp h with h | h
        · exact absurd h.symm hx
        · exact h
      have := ih this
      cases hs : strchr xs c with
      | none => rw [hs] at this; cases this
      | some i => simp [strchr, hx, hs]

theorem inet_pton6_loop_length (s : List Char) :
    ∀ (words : List Nat) (colonp : Option Nat) (curtok : List Char) (seen val : Nat) (st : Pton6),
      words.length ≤ 8 → inet_pton6_loop s words colonp curtok seen val = some st →
      st.words.length ≤ 8 := by
  induction s with
  | nil =>
    intro words colonp curtok seen val st hw h
    simp only [inet_pton6_loop, Option.some.injEq] at h
    subst h
    exact hw
  | cons ch s ih =>
    intro words colonp curtok seen val st hw h
    simp only [inet_pton6_loop] at h
    split at h
    · split at h
      · cases h
      · split at h
        · cases h
        · exact ih _ _ _ _ _ _ hw h
    · split at h
      · split at h
        · split at h
          · cases h
          · exact ih _ _ _ _ _ _ hw h
        · split at h
          · cases h
          · split at h
            · cases h
            · exact ih _ _ _ _ _ _ (by simp only [List.length_append, List.length_singleton]; omega) h
      · split at h
        · split at h
          · simp only [Option.some.injEq] at h
            subst h
            simp only [List.length_append, List.length_cons, List.length_nil]
            omega
          · cases h
        · cases h

theorem inet_pton6_finish_length (st : Pton6) (ws : List Nat) (hw : st.words.length ≤ 8)
    (h : inet_pton6_finish st = some ws) : ws.length = 8 := by
  unfold inet_pton6_finish at h
  by_cases h0 : 0 < st.xdigits_seen ∧ 8 ≤ st.words.length
  · rw [if_pos h0] at h
    cases h
  · rw [if_neg h0] at h
    have hwl : (if 0 < st.xdigits_seen then st.words ++ [st.val] else st.words).length ≤ 8 := by
      by_cases hs : 0 < st.xdigits_seen
      · rw [if_pos hs]
        simp only [List.length_append, List.length_singleton]
        have : ¬ 8 ≤ st.words.length := fun h8 => h0 ⟨hs, h8⟩
        omega
      · rw [if_neg hs]
        exact hw
    generalize (if 0 < st.xdigits_seen then st.words ++ [st.val] else st.words) = words at h hwl
    cases hc : st.colonp with
    | none =>
      rw [hc] at h
      by_cases h8 : words.length = 8
      · simp only [h8, if_true, Option.some.injEq] at h
        rw [← h]
        exact h8
      · simp [h8] at h
    | some c =>
      rw [hc] at h
      by_cases h8 : words.length = 8
      · simp [h8] at h
      · simp only [h8, if_false, Option.some.injEq] at h
        rw [← h]
        simp only [List.length_append, List.length_take, List.length_replicate, List.length_drop]
        omega

theorem flatMap_word_bytes_length (ws : List Nat) : (ws.flatMap word_bytes).length = 2 * ws.length := by
  induction ws with
  | nil => rfl
  | cons w ws ih => simp [List.flatMap_cons, word_bytes, ih]; omega

theorem flatMap_word_bytes_lt (ws : List Nat) : ∀ b ∈ ws.flatMap word_bytes, b < 256 := by
  intro b hb
  simp only [List.mem_flatMap, word_bytes, List.mem_cons, List.mem_singleton, List.not_mem_nil,
    or_false] at hb
  obtain ⟨w, _, h | h⟩ := hb <;> omega

theorem inet_pton6_body_shape (t : List Char) (a : List Nat) (ht : inet_pton6_body t = some a) :
    a.length = 16 ∧ ∀ b ∈ a, b < 256 := by
  obtain ⟨st, hl, hst⟩ := Option.bind_eq_some.mp ht
  obtain ⟨ws, hf, hws⟩ := Option.map_eq_some'.mp hst
  subst hws
  have hlen := inet_pton6_finish_length st ws
    (inet_pton6_loop_length t [] none t 0 0 st (by simp) hl) hf
  exact ⟨by rw [flatMap_word_bytes_length, hlen], flatMap_word_bytes_lt ws⟩

/-- An address `inet_pton6` returns has sixteen bytes. -/
theorem inet_pton6_shape (s : List Char) (a : List Nat) (h : inet_pton6 s = some a) :
    a.length = 16 ∧ ∀ b ∈ a, b < 256 := by
  unfold inet_pton6 at h
  split at h
  · cases h
  · split at h
    · exact inet_pton6_body_shape _ a h
    · cases h
  · exact inet_pton6_body_shape _ a h

/-! ## `inet_pton` reads back what `inet_ntop` prints for IPv6 -/

theorem hex_digit_value_hex_char (d : Nat) (h : d < 16) :
    hex_digit_value (hex_char d) = some d := by
  interval_cases d <;> rfl

theorem hex_char_ne_colon (d : Nat) (h : d < 16) : hex_char d ≠ ':' := by
  interval_cases d <;> decide

theorem hex_text_ne_nil (w : Nat) : hex_text w ≠ [] := by
  unfold hex_text
  split
  · simp
  · split
    · simp
    · split <;> simp

theorem hex_text_head (w : Nat) (hw : w < 65536) :
    ∃ d rest, d < 16 ∧ hex_text w = hex_char d :: rest := by
  unfold hex_text
  split
  · exact ⟨w, [], by omega, rfl⟩
  · split
    · exact ⟨w / 16, _, by omega, rfl⟩
    · split
      · exact ⟨w / 256, _, by omega, rfl⟩
      · exact ⟨w / 4096, _, by omega, rfl⟩

theorem pton6_loop_hex (d : Nat) (hd : d < 16) (src : List Char) (words : List Nat)
    (colonp : Option Nat) (curtok : List Char) (seen val : Nat) :
    inet_pton6_loop (hex_char d :: src) words colonp curtok seen val =
      if seen = 4 then none
      else if val * 16 + d > 65535 then none
      else inet_pton6_loop src words colonp curtok (seen + 1) (val * 16 + d) := by
  simp [inet_pton6_loop, hex_digit_value_hex_char d hd]

/-- Reading the digits of a 16-bit word leaves the word as the pending value. -/
theorem pton6_loop_hex_text (w : Nat) (hw : w < 65536) (rest : List Char) (words : List Nat)
    (colonp : Option Nat) (curtok : List Char) :
    ∃ seen, 0 < seen ∧
      inet_pton6_loop (hex_text w ++ rest) words colonp curtok 0 0 =
        inet_pton6_loop rest words colonp curtok seen w := by
  unfold hex_text
  by_cases h1 : w < 16
  · refine ⟨1, by omega, ?_⟩
    have n1 : ¬ w > 65535 := by omega
    simp [h1, pton6_loop_hex w h1, n1]
  · by_cases h2 : w < 256
    · refine ⟨2, by omega, ?_⟩
      have d1 : w / 16 < 16 := by omega
      have d2 : w % 16 < 16 := by omega
      have n1 : ¬ w / 16 > 65535 := by omega
      have n2 : ¬ w / 16 * 16 + w % 16 > 65535 := by omega
      have e : w / 16 * 16 + w % 16 = w := by omega
      have n0 : ¬ 65535 < w := by omega
      simp [h1, h2, pton6_loop_hex _ d1, pton6_loop_hex _ d2, n0, n1, n2, e]
    · by_cases h3 : w < 4096
      · refine ⟨3, by omega, ?_⟩
        have d1 : w / 256 < 16 := by omega
        have d2 : w / 16 % 16 < 16 := by omega
        have d3 : w % 16 < 16 := by omega
        have n1 : ¬ w / 256 > 65535 := by omega
        have n2 : ¬ w / 256 * 16 + w / 16 % 16 > 65535 := by omega
        have n3 : ¬ (w / 256 * 16 + w / 16 % 16) * 16 + w % 16 > 65535 := by omega
        have e : (w / 256 * 16 + w / 16 % 16) * 16 + w % 16 = w := by omega
        have n0 : ¬ 65535 < w := by omega
        simp [h1, h2, h3, pton6_loop_hex _ d1, pton6_loop_hex _ d2, pton6_loop_hex _ d3, n0, n1,
          n2, n3, e]
      · refine ⟨4, by omega, ?_⟩
        have d1 : w / 4096 < 16 := by omega
        have d2 : w / 256 % 16 < 16 := by omega
        have d3 : w / 16 % 16 < 16 := by omega
        have d4 : w % 16 < 16 := by omega
        have n1 : ¬ w / 4096 > 65535 := by omega
        have n2 : ¬ w / 4096 * 16 + w / 256 % 16 > 65535 := by omega
        have n3 : ¬ (w / 4096 * 16 + w / 256 % 16) * 16 + w / 16 % 16 > 65535 := by omega
        have n4 : ¬ ((w / 4096 * 16 + w / 256 % 16) * 16 + w / 16 % 16) * 16 + w % 16 > 65535 := by
          omega
        have e : ((w / 4096 * 16 + w / 256 % 16) * 16 + w / 16 % 16) * 16 + w % 16 = w := by omega
        have n0 : ¬ 65535 < w := by omega
        simp [h1, h2, h3, pton6_loop_hex _ d1, pton6_loop_hex _ d2, pton6_loop_hex _ d3,
          pton6_loop_hex _ d4, n0, n1, n2, n3, n4, e]

theorem pton6_loop_colon_push (src : List Char) (words : List Nat) (colonp : Option Nat)
    (curtok : List Char) (seen val : Nat) (hseen : 0 < seen) (hsrc : src ≠ [])
    (hlen : words.length < 8) :
    inet_pton6_loop (':' :: src) words colonp curtok seen val =
      inet_pton6_loop src (words ++ [val]) colonp src 0 0 := by
  have h : hex_digit_value ':' = none := by decide
  have n1 : ¬ seen = 0 := by omega
  have n2 : ¬ words.length + 1 > 8 := by omega
  simp [inet_pton6_loop, h, n1, hsrc, n2]

theorem pton6_loop_colon_mark (src : List Char) (words : List Nat) (curtok : List Char)
    (val : Nat) :
    inet_pton6_loop (':' :: src) words none curtok 0 val =
      inet_pton6_loop src words (some words.length) src 0 0 := by
  have h : hex_digit_value ':' = none := by decide
  simp [inet_pton6_loop, h]

theorem colon_hex_cons (v : Nat) (vs : List Nat) :
    colon_hex (v :: vs) = ':' :: (hex_text v ++ colon_hex vs) := by
  simp [colon_hex]

/-- Reading `:x:y:z` behind a pending word stores the words read so far and leaves the
last one pending. -/
theorem pton6_loop_colon_hex (vs : List Nat) :
    ∀ (stored : List Nat) (colonp : Option Nat) (curtok : List Char) (seen val : Nat)
      (rest : List Char),
      0 < seen → (∀ v ∈ vs, v < 65536) → stored.length + vs.length ≤ 7 →
      ∃ words curtok' seen' val', 0 < seen' ∧ words ++ [val'] = stored ++ val :: vs ∧
        inet_pton6_loop (colon_hex vs ++ rest) stored colonp curtok seen val =
          inet_pton6_loop rest words colonp curtok' seen' val' := by
  induction vs with
  | nil =>
    intro stored colonp curtok seen val rest hseen _ _
    exact ⟨stored, curtok, seen, val, hseen, rfl, by simp [colon_hex]⟩
  | cons v vs ih =>
    intro stored colonp curtok seen val rest hseen hv hlen
    simp only [List.length_cons] at hlen
    have hne : hex_text v ++ colon_hex vs ++ rest ≠ [] := by
      simp [hex_text_ne_nil v]
    obtain ⟨s1, hs1, h1⟩ := pton6_loop_hex_text v (hv v (by simp)) (colon_hex vs ++ rest)
      (stored ++ [val]) colonp (hex_text v ++ (colon_hex vs ++ rest))
    obtain ⟨words, tok', seen', val', hseen', hwords, h2⟩ :=
      ih (stored ++ [val]) colonp (hex_text v ++ (colon_hex vs ++ rest)) s1 v rest hs1
        (fun x hx => hv x (by simp [hx]))
        (by simp only [List.length_append, List.length_singleton]; omega)
    refine ⟨words, tok', seen', val', hseen', ?_, ?_⟩
    · rw [hwords]
      simp
    · rw [colon_hex_cons, List.cons_append,
        pton6_loop_colon_push _ _ _ _ _ _ hseen hne (by omega), List.append_assoc, h1, h2]

theorem pton6_finish_pending (words : List Nat) (seen val : Nat) (hseen : 0 < seen)
    (h8 : words.length + 1 = 8) :
    inet_pton6_finish ⟨words, none, seen, val⟩ = some (words ++ [val]) := by
  have n : words.length < 8 := by omega
  simp [inet_pton6_finish, n, hseen, h8]

theorem pton6_finish_pending_mark (words : List Nat) (c seen val : Nat) (hseen : 0 < seen)
    (h8 : words.length + 1 < 8) :
    inet_pton6_finish ⟨words, some c, seen, val⟩ =
      some ((words ++ [val]).take c ++ List.replicate (8 - (words.length + 1)) 0 ++
        (words ++ [val]).drop c) := by
  have n : words.length < 8 := by omega
  have n2 : ¬ words.length + 1 = 8 := by omega
  simp [inet_pton6_finish, n, hseen, n2]

theorem pton6_finish_mark (words : List Nat) (c val : Nat) (h8 : words.length < 8) :
    inet_pton6_finish ⟨words, some c, 0, val⟩ =
      some (words.take c ++ List.replicate (8 - words.length) 0 ++ words.drop c) := by
  have n2 : ¬ words.length = 8 := by omega
  simp [inet_pton6_finish, n2]

theorem better_run_cases (best : Option (Nat × Nat)) (c : Nat × Nat) :
    better_run best c = some c ∨ better_run best c = best := by
  unfold better_run
  cases best with
  | none => exact Or.inl rfl
  | some b =>
    by_cases h : c.2 > b.2
    · simp [h]
    · simp [h]

theorem scan_runs_zero_run (suffix : List Nat) :
    ∀ (front : List Nat) (best cur : Option (Nat × Nat)),
      (∀ r, best = some r → zero_run (front ++ suffix) r) →
      (∀ c, cur = some c → zero_run (front ++ suffix) c ∧ c.1 + c.2 = front.length) →
      ∀ r, scan_runs suffix front.length best cur = some r → zero_run (front ++ suffix) r := by
  induction suffix with
  | nil =>
    intro front best cur hbest hcur r h
    cases cur with
    | none => exact hbest r h
    | some c =>
      simp only [scan_runs] at h
      rcases better_run_cases best c with hc | hc
      · rw [hc] at h
        have hcr := Option.some.inj h
        rw [← hcr]
        exact (hcur c rfl).1
      · rw [hc] at h
        exact hbest r h
  | cons w suffix ih =>
    intro front best cur hbest hcur r h
    have hsplit : front ++ w :: suffix = (front ++ [w]) ++ suffix := by simp
    have hlen : (front ++ [w]).length = front.length + 1 := by simp
    have hw : (front ++ w :: suffix)[front.length]? = some w := by
      rw [List.getElem?_append_right (Nat.le_refl _)]
      simp
    rw [hsplit] at hbest hcur hw ⊢
    simp only [scan_runs] at h
    rw [← hlen] at h
    by_cases hw0 : w = 0
    · rw [if_pos hw0] at h
      cases cur with
      | none =>
        refine ih (front ++ [w]) best (some (front.length, 1)) hbest ?_ r h
        intro c hc
        cases hc
        refine ⟨⟨?_, ?_⟩, by simp⟩
        · simp only [List.length_append, List.length_singleton]; omega
        · intro k h1 h2
          have : k = front.length := by simp only at h1 h2; omega
          rw [this, hw, hw0]
      | some c =>
        obtain ⟨⟨hc1, hc2⟩, hc3⟩ := hcur c rfl
        refine ih (front ++ [w]) best (some (c.1, c.2 + 1)) hbest ?_ r h
        intro c' hc'
        cases hc'
        refine ⟨⟨?_, ?_⟩, by simp only [List.length_append, List.length_singleton]; omega⟩
        · simp only [List.length_append, List.length_singleton] at hc1 ⊢; omega
        · intro k h1 h2
          by_cases hk : k < c.1 + c.2
          · exact hc2 k h1 hk
          · have : k = front.length := by simp only at h1 h2; omega
            rw [this, hw, hw0]
    · rw [if_neg hw0] at h
      cases cur with
      | none =>
        exact ih (front ++ [w]) best none hbest (by intro c hc; cases hc) r h
      | some c =>
        refine ih (front ++ [w]) (better_run best c) none ?_ (by intro c hc; cases hc) r h
        intro r' hr'
        rcases better_run_cases best c with hc | hc
        · rw [hc] at hr'
          have hcr := Option.some.inj hr'
          rw [← hcr]
          exact (hcur c rfl).1
        · rw [hc] at hr'
          exact hbest r' hr'

/-- The run `inet_ntop6` abbreviates consists of at least two words, all zero. -/
theorem best_run_spec (ws : List Nat) (r : Nat × Nat) (h : best_run ws = some r) :
    2 ≤ r.2 ∧ zero_run ws r := by
  unfold best_run at h
  cases hs : scan_runs ws 0 none none with
  | none => rw [hs] at h; cases h
  | some b =>
    rw [hs] at h
    by_cases hb : b.2 < 2
    · simp [hb] at h
    · simp only [hb, if_false, Option.some.injEq] at h
      subst h
      have := scan_runs_zero_run ws [] none none (by intro r hr; cases hr)
        (by intro r hr; cases hr) b hs
      exact ⟨by omega, by simpa using this⟩

theorem zero_run_split (ws : List Nat) (b l : Nat) (h : zero_run ws (b, l)) :
    ws = ws.take b ++ List.replicate l 0 ++ ws.drop (b + l) := by
  obtain ⟨hlen, hz⟩ := h
  simp only at hlen hz
  have hmid : (ws.drop b).take l = List.replicate l 0 := by
    rw [List.eq_replicate_iff]
    refine ⟨by simp only [List.length_take, List.length_drop]; omega, ?_⟩
    intro x hx
    obtain ⟨n, hn, hx⟩ := List.mem_iff_getElem.mp hx
    simp only [List.length_take, List.length_drop] at hn
    have h1 := hz (b + n) (by omega) (by omega)
    simp only [List.getElem_take, List.getElem_drop] at hx
    have h2 : ws[b + n]? = some x := by
      rw [List.getElem?_eq_getElem (by omega), hx]
    rw [h1] at h2
    exact (Option.some.inj h2).symm
  have h3 : ws.drop (b + l) = (ws.drop b).drop l := by
    rw [List.drop_drop, Nat.add_comm]
  rw [h3, ← hmid, List.append_assoc, List.take_append_drop, List.take_append_drop]

theorem format6_none (w5 : Nat) (src12 : List Nat) (ws : List Nat) :
    ∀ i, 1 ≤ i → format6 none w5 src12 ws i = colon_hex ws := by
  induction ws with
  | nil => intro i _; rfl
  | cons w ws ih =>
    intro i hi
    have hne : i ≠ 0 := by omega
    simp [format6, hne, ih (i + 1) (by omega), colon_hex_cons]

theorem format6_none_zero (w5 : Nat) (src12 : List Nat) (w : Nat) (ws : List Nat) :
    format6 none w5 src12 (w :: ws) 0 = hex_text w ++ colon_hex ws := by
  simp [format6, format6_none w5 src12 ws 1 (by omega)]

/-- Behind the run, and when no dotted quad is printed, every word follows a colon. -/
theorem format6_after (b l w5 : Nat) (src12 : List Nat) (ws : List Nat) :
    ∀ i, b + l ≤ i → 1 ≤ i → (¬ embedded_ipv4 (b, l) w5 ∨ 6 < i) →
      format6 (some (b, l)) w5 src12 ws i = colon_hex ws := by
  induction ws with
  | nil => intro i _ _ _; rfl
  | cons w ws ih =>
    intro i hbl hi hemb
    have hne : i ≠ 0 := by omega
    have hrun : ¬ (b ≤ i ∧ i < b + l) := by omega
    have he : ¬ (i = 6 ∧ b = 0 ∧ (l = 6 ∨ (l = 5 ∧ w5 = 65535))) := by
      rcases hemb with h | h
      · intro h2
        exact h ⟨h2.2.1, h2.2.2⟩
      · omega
    have hnext := ih (i + 1) (by omega) (by omega)
      (by rcases hemb with h | h
          · exact Or.inl h
          · exact Or.inr (by omega))
    simp only [format6, hrun, decide_False, Bool.false_eq_true, if_false, ne_eq, hne,
      not_false_eq_true, if_true, he, hnext, colon_hex_cons, List.singleton_append]

/-- Inside the run only its first word prints a colon. -/
theorem format6_run (b l w5 : Nat) (src12 : List Nat) (m : Nat) :
    ∀ (ws : List Nat) (i : Nat), b ≤ i → i + m ≤ b + l → m ≤ ws.length →
      format6 (some (b, l)) w5 src12 ws i =
        (if i = b ∧ 0 < m then [':'] else []) ++
          format6 (some (b, l)) w5 src12 (ws.drop m) (i + m) := by
  induction m with
  | zero => intro ws i _ _ _; simp
  | succ m ih =>
    intro ws i hb hl hlen
    cases ws with
    | nil => simp at hlen
    | cons w ws =>
      simp only [List.length_cons] at hlen
      have hrun : b ≤ i ∧ i < b + l := by omega
      have hnext := ih ws (i + 1) (by omega) (by omega) (by omega)
      have hn : ¬ (i + 1 = b ∧ 0 < m) := by omega
      rw [if_neg hn] at hnext
      simp only [format6, hrun, and_self, decide_True, if_true, Option.map_some',
        Option.some.injEq, hnext, List.nil_append, List.drop_succ_cons]
      have e : i + 1 + m = i + (m + 1) := by omega
      rw [e]
      by_cases hib : i = b
      · have h1 : b = i := hib.symm
        simp [hib]
      · have h1 : ¬ b = i := fun h => hib h.symm
        simp [hib, h1]

/-- In front of a run that does not start the address, every word but the first
follows a colon. -/
theorem format6_before (b l w5 : Nat) (src12 : List Nat) (m : Nat) :
    ∀ (ws : List Nat) (i : Nat), 1 ≤ i → i + m ≤ b → m ≤ ws.length →
      format6 (some (b, l)) w5 src12 ws i =
        colon_hex (ws.take m) ++ format6 (some (b, l)) w5 src12 (ws.drop m) (i + m) := by
  induction m with
  | zero => intro ws i _ _ _; simp [colon_hex]
  | succ m ih =>
    intro ws i hi hb hlen
    cases ws with
    | nil => simp at hlen
    | cons w ws =>
      simp only [List.length_cons] at hlen
      have hne : i ≠ 0 := by omega
      have hrun : ¬ (b ≤ i ∧ i < b + l) := by omega
      have he : ¬ (i = 6 ∧ b = 0 ∧ (l = 6 ∨ (l = 5 ∧ w5 = 65535))) := by omega
      have hnext := ih ws (i + 1) (by omega) (by omega) (by omega)
      have e : i + 1 + m = i + (m + 1) := by omega
      simp only [format6, hrun, decide_False, Bool.false_eq_true, if_false, ne_eq, hne,
        not_false_eq_true, if_true, he, hnext, colon_hex_cons, List.singleton_append,
        List.take_succ_cons, List.drop_succ_cons, e, List.cons_append, List.append_assoc,
        List.nil_append]

theorem format6_first (b l w5 : Nat) (src12 : List Nat) (w : Nat) (ws : List Nat) (hb : 0 < b) :
    format6 (some (b, l)) w5 src12 (w :: ws) 0 =
      hex_text w ++ format6 (some (b, l)) w5 src12 ws 1 := by
  have hrun : ¬ (b ≤ 0 ∧ 0 < b + l) := by omega
  have he : ¬ ((0 : Nat) = 6 ∧ b = 0 ∧ (l = 6 ∨ (l = 5 ∧ w5 = 65535))) := by omega
  simp only [format6, hrun, decide_False, Bool.false_eq_true, if_false, ne_eq,
    not_true_eq_false, he, List.nil_append, Nat.zero_add]

theorem inet_pton6_of_ne_colon (c : Char) (hne : c ≠ ':') (t : List Char) :
    inet_pton6 (c :: t) = inet_pton6_body (c :: t) := by
  unfold inet_pton6
  split
  · rename_i h; cases h
  · rename_i h
    cases h
    exact absurd rfl hne
  · rfl

theorem inet_pton6_of_hex (d : Nat) (hd : d < 16) (t : List Char) :
    inet_pton6 (hex_char d :: t) = inet_pton6_body (hex_char d :: t) :=
  inet_pton6_of_ne_colon _ (hex_char_ne_colon d hd) t

theorem inet_pton6_of_colons (t : List Char) :
    inet_pton6 (':' :: ':' :: t) = inet_pton6_body (':' :: t) := rfl

theorem colon_hex_trailing_head (vs : List Nat) (trail : List Char)
    (h : vs = [] → trail = [':']) : ∃ t, colon_hex vs ++ trail = ':' :: t := by
  cases vs with
  | nil => exact ⟨[], by simp [colon_hex, h rfl]⟩
  | cons v vs => exact ⟨_, by rw [colon_hex_cons]; rfl⟩

/-- Reading what `inet_ntop6` prints from the second colon of `::` on: the words behind
the run, or the lone colon that ends the text. -/
theorem pton6_behind_run (stored vs : List Nat) (trail curtok : List Char)
    (hv : ∀ v ∈ vs, v < 65536) (hlen : stored.length + vs.length + 2 ≤ 8)
    (h1 : vs = [] → trail = [':']) (h2 : vs ≠ [] → trail = []) :
    ∃ st, inet_pton6_loop (colon_hex vs ++ trail) stored none curtok 0 0 = some st ∧
      inet_pton6_finish st =
        some (stored ++ List.replicate (8 - (stored.length + vs.length)) 0 ++ vs) := by
  cases vs with
  | nil =>
    rw [h1 rfl]
    refine ⟨⟨stored, some stored.length, 0, 0⟩, ?_, ?_⟩
    · rw [show colon_hex [] ++ [':'] = [':'] from rfl, pton6_loop_colon_mark]
      rfl
    · rw [pton6_finish_mark _ _ _ (by simp only [List.length_nil] at hlen; omega)]
      simp
  | cons v vs =>
    rw [h2 (by simp), List.append_nil, colon_hex_cons, pton6_loop_colon_mark]
    obtain ⟨s1, hs1, e1⟩ := pton6_loop_hex_text v (hv v (by simp)) (colon_hex vs) stored
      (some stored.length) (hex_text v ++ colon_hex vs)
    simp only [List.length_cons] at hlen
    obtain ⟨words, tok', seen', val', hseen', hwords, e2⟩ :=
      pton6_loop_colon_hex vs stored (some stored.length) (hex_text v ++ colon_hex vs) s1 v []
        hs1 (fun x hx => hv x (by simp [hx])) (by omega)
    rw [List.append_nil] at e2
    refine ⟨⟨words, some stored.length, seen', val'⟩, ?_, ?_⟩
    · rw [e1, e2]
      simp only [inet_pton6_loop]
    · have hwl : words.length + 1 = stored.length + (vs.length + 1) := by
        have := congrArg List.length hwords
        simpa using this
      rw [pton6_finish_pending_mark _ _ _ _ hseen' (by omega), hwords, hwl]
      simp [List.length_cons]

theorem inet_pton6_body_of_loop (t : List Char) (st : Pton6) (ws : List Nat)
    (hl : inet_pton6_loop t [] none t 0 0 = some st) (hf : inet_pton6_finish st = some ws) :
    inet_pton6_body t = some (ws.flatMap word_bytes) := by
  simp [inet_pton6_body, hl, hf]

/-- A text without `::`: eight words. -/
theorem inet_pton6_plain (w0 : Nat) (tail : List Nat) (hw : ∀ v ∈ w0 :: tail, v < 65536)
    (hlen : tail.length = 7) :
    inet_pton6 (hex_text w0 ++ colon_hex tail) = some ((w0 :: tail).flatMap word_bytes) := by
  obtain ⟨d, rest0, hd, hhead⟩ := hex_text_head w0 (hw w0 (by simp))
  have hstart : hex_text w0 ++ colon_hex tail = hex_char d :: (rest0 ++ colon_hex tail) := by
    rw [hhead]; rfl
  rw [hstart, inet_pton6_of_hex d hd, ← hstart]
  obtain ⟨s1, hs1, e1⟩ := pton6_loop_hex_text w0 (hw w0 (by simp)) (colon_hex tail) [] none
    (hex_text w0 ++ colon_hex tail)
  obtain ⟨words, tok', seen', val', hseen', hwords, e2⟩ :=
    pton6_loop_colon_hex tail [] none (hex_text w0 ++ colon_hex tail) s1 w0 [] hs1
      (fun x hx => hw x (by simp [hx])) (by simp only [List.length_nil]; omega)
  rw [List.append_nil] at e2
  have hwl : words.length + 1 = 8 := by
    have := congrArg List.length hwords
    simp only [List.length_append, List.length_singleton, List.length_nil, List.length_cons,
      hlen] at this
    omega
  refine inet_pton6_body_of_loop _ ⟨words, none, seen', val'⟩ _ ?_ ?_
  · rw [e1, e2]
    simp only [inet_pton6_loop]
  · rw [pton6_finish_pending _ _ _ hseen' hwl, hwords]
    rfl

/-- A text whose `::` follows some words. -/
theorem inet_pton6_front_run (w0 : Nat) (front behind : List Nat) (trail : List Char)
    (hw0 : w0 < 65536) (hf : ∀ v ∈ front, v < 65536) (hb : ∀ v ∈ behind, v < 65536)
    (hlen : front.length + 1 + behind.length + 2 ≤ 8)
    (h1 : behind = [] → trail = [':']) (h2 : behind ≠ [] → trail = []) :
    inet_pton6 (hex_text w0 ++ (colon_hex front ++ ':' :: (colon_hex behind ++ trail))) =
      some ((w0 :: front ++
        List.replicate (8 - (front.length + 1 + behind.length)) 0 ++ behind).flatMap
          word_bytes) := by
  obtain ⟨d, rest0, hd, hhead⟩ := hex_text_head w0 hw0
  have hstart : hex_text w0 ++ (colon_hex front ++ ':' :: (colon_hex behind ++ trail)) =
      hex_char d :: (rest0 ++ (colon_hex front ++ ':' :: (colon_hex behind ++ trail))) := by
    rw [hhead]; rfl
  rw [hstart, inet_pton6_of_hex d hd, ← hstart]
  obtain ⟨s1, hs1, e1⟩ := pton6_loop_hex_text w0 hw0
    (colon_hex front ++ ':' :: (colon_hex behind ++ trail)) [] none
    (hex_text w0 ++ (colon_hex front ++ ':' :: (colon_hex behind ++ trail)))
  obtain ⟨words, tok', seen', val', hseen', hwords, e2⟩ :=
    pton6_loop_colon_hex front [] none
      (hex_text w0 ++ (colon_hex front ++ ':' :: (colon_hex behind ++ trail))) s1 w0
      (':' :: (colon_hex behind ++ trail)) hs1 hf
      (by simp only [List.length_nil]; omega)
  have hwl : words.length = front.length := by
    have := congrArg List.length hwords
    simp only [List.length_append, List.length_singleton, List.length_nil, List.length_cons]
      at this
    omega
  obtain ⟨t, ht⟩ := colon_hex_trailing_head behind trail h1
  have hne : colon_hex behind ++ trail ≠ [] := by rw [ht]; simp
  have e3 := pton6_loop_colon_push (colon_hex behind ++ trail) words none tok' seen' val' hseen'
    hne (by omega)
  rw [hwords, List.nil_append] at e3
  obtain ⟨st, e4, hfin⟩ := pton6_behind_run (w0 :: front) behind trail (colon_hex behind ++ trail)
    hb (by simp only [List.length_cons]; omega) h1 h2
  refine inet_pton6_body_of_loop _ st _ ?_ ?_
  · rw [e1, e2, e3, e4]
  · rw [hfin]
    simp only [List.length_cons, List.cons_append]

/-- A text that starts with `::`. -/
theorem inet_pton6_zero_run (behind : List Nat) (trail : List Char)
    (hb : ∀ v ∈ behind, v < 65536) (hlen : behind.length + 2 ≤ 8)
    (h1 : behind = [] → trail = [':']) (h2 : behind ≠ [] → trail = []) :
    inet_pton6 (':' :: (colon_hex behind ++ trail)) =
      some ((List.replicate (8 - behind.length) 0 ++ behind).flatMap word_bytes) := by
  obtain ⟨t, ht⟩ := colon_hex_trailing_head behind trail h1
  rw [ht, inet_pton6_of_colons, ← ht]
  obtain ⟨st, e4, hfin⟩ := pton6_behind_run [] behind trail (colon_hex behind ++ trail)
    hb (by simp only [List.length_nil]; omega) h1 h2
  refine inet_pton6_body_of_loop _ st _ e4 ?_
  rw [hfin]
  simp

theorem digit_char_eq_hex_char (d : Nat) (h : d < 10) : digit_char d = hex_char d := by
  simp [digit_char, hex_char, h]

theorem pton6_loop_dot (rest : List Char) (words : List Nat) (colonp : Option Nat)
    (curtok : List Char) (seen val : Nat) (q : List Nat) (hlen : words.length + 2 ≤ 8)
    (hq : inet_pton4 curtok = some q) :
    inet_pton6_loop ('.' :: rest) words colonp curtok seen val =
      some ⟨words ++ [q.getD 0 0 * 256 + q.getD 1 0, q.getD 2 0 * 256 + q.getD 3 0],
        colonp, 0, val⟩ := by
  have h : hex_digit_value '.' = none := by decide
  have hne : ('.' : Char) ≠ ':' := by decide
  simp [inet_pton6_loop, h, hne, hlen, hq]

/-- Reading a dotted quad inside an IPv6 text: its first octet is read as digits of a
group, and at the dot `inet_pton4` takes the text over. -/
theorem pton6_loop_dotted (b : Nat) (hb : b < 256) (rest : List Char) (words : List Nat)
    (colonp : Option Nat) (curtok : List Char) (q : List Nat) (hlen : words.length + 2 ≤ 8)
    (hq : inet_pton4 curtok = some q) :
    ∃ val, inet_pton6_loop (u8_text b ++ '.' :: rest) words colonp curtok 0 0 =
      some ⟨words ++ [q.getD 0 0 * 256 + q.getD 1 0, q.getD 2 0 * 256 + q.getD 3 0],
        colonp, 0, val⟩ := by
  unfold u8_text
  by_cases h10 : b < 10
  · refine ⟨b, ?_⟩
    have n1 : ¬ b > 65535 := by omega
    simp [h10, digit_char_eq_hex_char b h10, pton6_loop_hex b (by omega), n1,
      pton6_loop_dot _ _ _ _ _ _ q hlen hq]
  · by_cases h100 : b < 100
    · refine ⟨b / 10 * 16 + b % 10, ?_⟩
      have d1 : b / 10 < 10 := by omega
      have d2 : b % 10 < 10 := by omega
      have n1 : ¬ b / 10 > 65535 := by omega
      have n2 : ¬ b / 10 * 16 + b % 10 > 65535 := by omega
      simp [h10, h100, digit_char_eq_hex_char _ d1, digit_char_eq_hex_char _ d2,
        pton6_loop_hex (b / 10) (by omega), pton6_loop_hex (b % 10) (by omega), n1, n2,
        pton6_loop_dot _ _ _ _ _ _ q hlen hq]
    · refine ⟨(b / 100 * 16 + b / 10 % 10) * 16 + b % 10, ?_⟩
      have d1 : b / 100 < 10 := by omega
      have d2 : b / 10 % 10 < 10 := by omega
      have d3 : b % 10 < 10 := by omega
      have n1 : ¬ b / 100 > 65535 := by omega
      have n2 : ¬ b / 100 * 16 + b / 10 % 10 > 65535 := by omega
      have n3 : ¬ (b / 100 * 16 + b / 10 % 10) * 16 + b % 10 > 65535 := by omega
      simp [h10, h100, digit_char_eq_hex_char _ d1, digit_char_eq_hex_char _ d2,
        digit_char_eq_hex_char _ d3, pton6_loop_hex (b / 100) (by omega),
        pton6_loop_hex (b / 10 % 10) (by omega), pton6_loop_hex (b % 10) (by omega), n1, n2, n3,
        pton6_loop_dot _ _ _ _ _ _ q hlen hq]

/-- The text `::a.b.c.d`. -/
theorem inet_pton6_embedded6 (c0 c1 c2 c3 : Nat) (h0 : c0 < 256) (h1 : c1 < 256)
    (h2 : c2 < 256) (h3 : c3 < 256) :
    inet_pton6 (':' :: ':' :: inet_ntop4_text [c0, c1, c2, c3]) =
      some ((List.replicate 6 0 ++ [c0 * 256 + c1, c2 * 256 + c3]).flatMap word_bytes) := by
  rw [inet_pton6_of_colons]
  have hq := inet_pton4_ntop4 c0 c1 c2 c3 h0 h1 h2 h3
  have hform : inet_ntop4_text [c0, c1, c2, c3] =
      u8_text c0 ++ '.' :: inet_ntop4_text [c1, c2, c3] := rfl
  obtain ⟨val, e⟩ := pton6_loop_dotted c0 h0 (inet_ntop4_text [c1, c2, c3]) [] (some 0)
    (inet_ntop4_text [c0, c1, c2, c3]) [c0, c1, c2, c3] (by simp) hq
  rw [← hform] at e
  refine inet_pton6_body_of_loop _ ⟨[c0 * 256 + c1, c2 * 256 + c3], some 0, 0, val⟩ _ ?_ ?_
  · rw [pton6_loop_colon_mark]
    exact e
  · rw [pton6_finish_mark _ _ _ (by simp)]
    rfl

/-- The text `::ffff:a.b.c.d`. -/
theorem inet_pton6_embedded5 (c0 c1 c2 c3 : Nat) (h0 : c0 < 256) (h1 : c1 < 256)
    (h2 : c2 < 256) (h3 : c3 < 256) :
    inet_pton6 (':' :: ':' :: (hex_text 65535 ++ ':' :: inet_ntop4_text [c0, c1, c2, c3])) =
      some ((List.replicate 5 0 ++ [65535, c0 * 256 + c1, c2 * 256 + c3]).flatMap
        word_bytes) := by
  rw [inet_pton6_of_colons]
  have hq := inet_pton4_ntop4 c0 c1 c2 c3 h0 h1 h2 h3
  have hform : inet_ntop4_text [c0, c1, c2, c3] =
      u8_text c0 ++ '.' :: inet_ntop4_text [c1, c2, c3] := rfl
  obtain ⟨val, e⟩ := pton6_loop_dotted c0 h0 (inet_ntop4_text [c1, c2, c3]) [65535] (some 0)
    (inet_ntop4_text [c0, c1, c2, c3]) [c0, c1, c2, c3] (by simp) hq
  rw [← hform] at e
  obtain ⟨s1, hs1, e1⟩ := pton6_loop_hex_text 65535 (by omega)
    (':' :: inet_ntop4_text [c0, c1, c2, c3]) [] (some 0)
    (hex_text 65535 ++ ':' :: inet_ntop4_text [c0, c1, c2, c3])
  have hne : inet_ntop4_text [c0, c1, c2, c3] ≠ [] := by
    rw [hform]
    have : u8_text c0 ≠ [] := by
      unfold u8_text
      split
      · simp
      · split <;> simp
    simp [this]
  have e2 := pton6_loop_colon_push (inet_ntop4_text [c0, c1, c2, c3]) [] (some 0)
    (hex_text 65535 ++ ':' :: inet_ntop4_text [c0, c1, c2, c3]) s1 65535 hs1 hne (by simp)
  refine inet_pton6_body_of_loop _ ⟨[65535, c0 * 256 + c1, c2 * 256 + c3], some 0, 0, val⟩ _ ?_ ?_
  · rw [pton6_loop_colon_mark]
    show inet_pton6_loop (hex_text 65535 ++ ':' :: inet_ntop4_text [c0, c1, c2, c3]) [] (some 0)
      (hex_text 65535 ++ ':' :: inet_ntop4_text [c0, c1, c2, c3]) 0 0 = _
    rw [e1, e2]
    exact e
  · rw [pton6_finish_mark _ _ _ (by simp)]
    rfl

/-- Reading the text `inet_ntop6` prints for eight words, `inet_pton6` returns the words. -/
theorem inet_pton6_words (w0 w1 w2 w3 w4 w5 w6 w7 c0 c1 c2 c3 : Nat)
    (hw : ∀ v ∈ [w0, w1, w2, w3, w4, w5, w6, w7], v < 65536)
    (h0 : c0 < 256) (h1 : c1 < 256) (h2 : c2 < 256) (h3 : c3 < 256)
    (h6 : w6 = c0 * 256 + c1) (h7 : w7 = c2 * 256 + c3) :
    inet_pton6 (format6 (best_run [w0, w1, w2, w3, w4, w5, w6, w7]) w5 [c0, c1, c2, c3]
        [w0, w1, w2, w3, w4, w5, w6, w7] 0 ++
      (match best_run [w0, w1, w2, w3, w4, w5, w6, w7] with
       | some b => if b.1 + b.2 = 8 then [':'] else []
       | none => [])) =
      some ([w0, w1, w2, w3, w4, w5, w6, w7].flatMap word_bytes) := by
  cases hbest : best_run [w0, w1, w2, w3, w4, w5, w6, w7] with
  | none =>
    simp only [format6_none_zero, List.append_nil]
    exact inet_pton6_plain w0 [w1, w2, w3, w4, w5, w6, w7] hw rfl
  | some r =>
    obtain ⟨b, l⟩ := r
    obtain ⟨hl2, hrun⟩ := best_run_spec _ _ hbest
    have hsplit := zero_run_split _ b l hrun
    have hbl : b + l ≤ 8 := hrun.1
    simp only at hl2 hbl ⊢
    by_cases hb0 : b = 0
    · subst hb0
      have hfirst := format6_run 0 l w5 [c0, c1, c2, c3] l [w0, w1, w2, w3, w4, w5, w6, w7] 0
        (Nat.le_refl 0) (Nat.le_refl _) (by simpa using hbl)
      have hc : (0 : Nat) = 0 ∧ 0 < l := ⟨rfl, by omega⟩
      rw [if_pos hc, Nat.zero_add] at hfirst
      rw [hfirst]
      by_cases hemb : embedded_ipv4 (0, l) w5
      · rcases hemb.2 with hl6 | ⟨hl5, hw5⟩
        · simp only at hl6
          subst hl6
          have htext : format6 (some (0, 6)) w5 [c0, c1, c2, c3]
              (List.drop 6 [w0, w1, w2, w3, w4, w5, w6, w7]) 6 =
              ':' :: inet_ntop4_text [c0, c1, c2, c3] := by
            simp [format6]
          rw [htext]
          simp only [Nat.zero_add, Nat.reduceEqDiff, if_false, List.append_nil,
            List.singleton_append]
          rw [inet_pton6_embedded6 c0 c1 c2 c3 h0 h1 h2 h3, ← h6, ← h7]
          congr 2
          rw [hsplit]
          simp
        · simp only at hl5 hw5
          subst hl5
          have htext : format6 (some (0, 5)) w5 [c0, c1, c2, c3]
              (List.drop 5 [w0, w1, w2, w3, w4, w5, w6, w7]) 5 =
              ':' :: (hex_text 65535 ++ ':' :: inet_ntop4_text [c0, c1, c2, c3]) := by
            simp [format6, hw5]
          rw [htext]
          simp only [Nat.zero_add, Nat.reduceEqDiff, if_false, List.append_nil,
            List.singleton_append]
          rw [inet_pton6_embedded5 c0 c1 c2 c3 h0 h1 h2 h3, ← h6, ← h7]
          congr 2
          rw [hsplit]
          simp [hw5]
      · rw [format6_after 0 l w5 [c0, c1, c2, c3] _ l (by omega) (by omega) (Or.inl hemb)]
        have hdl : (List.drop l [w0, w1, w2, w3, w4, w5, w6, w7]).length = 8 - l := by simp
        have h1' : List.drop l [w0, w1, w2, w3, w4, w5, w6, w7] = [] →
            (if 0 + l = 8 then [':'] else []) = [':'] := by
          intro hnil
          have : l = 8 := by
            have := congrArg List.length hnil
            rw [hdl] at this
            simp only [List.length_nil] at this
            omega
          exact if_pos (by omega)
        have h2' : List.drop l [w0, w1, w2, w3, w4, w5, w6, w7] ≠ [] →
            (if 0 + l = 8 then [':'] else []) = [] := by
          intro hne
          have : ¬ 0 + l = 8 := by
            intro h8
            apply hne
            have : l = 8 := by omega
            subst this
            rfl
          exact if_neg this
        have := inet_pton6_zero_run (List.drop l [w0, w1, w2, w3, w4, w5, w6, w7])
          (if 0 + l = 8 then [':'] else [])
          (fun v hv => hw v (List.mem_of_mem_drop hv)) (by rw [hdl]; omega) h1' h2'
        rw [List.singleton_append, List.cons_append, this, hdl]
        congr 2
        have e : 8 - (8 - l) = l := by omega
        rw [e]
        have hs2 := hsplit
        simp only [List.take_zero, List.nil_append, Nat.zero_add] at hs2
        exact hs2.symm
    · have hbpos : 0 < b := by omega
      rw [format6_first b l w5 _ w0 _ hbpos,
        format6_before b l w5 [c0, c1, c2, c3] (b - 1) [w1, w2, w3, w4, w5, w6, w7] 1
          (Nat.le_refl 1) (by omega) (by simp only [List.length_cons, List.length_nil]; omega)]
      have e1 : 1 + (b - 1) = b := by omega
      rw [e1]
      have hdl : (List.drop (b - 1) [w1, w2, w3, w4, w5, w6, w7]).length = 8 - b := by
        simp only [List.length_drop, List.length_cons, List.length_nil]; omega
      rw [format6_run b l w5 [c0, c1, c2, c3] l _ b (Nat.le_refl b) (Nat.le_refl _)
        (by rw [hdl]; omega)]
      have hc : b = b ∧ 0 < l := ⟨rfl, by omega⟩
      rw [if_pos hc]
      have hnemb : ¬ embedded_ipv4 (b, l) w5 := fun h => hb0 h.1
      rw [format6_after b l w5 [c0, c1, c2, c3] _ (b + l) (Nat.le_refl _) (by omega)
        (Or.inl hnemb)]
      generalize hfront : List.take (b - 1) [w1, w2, w3, w4, w5, w6, w7] = front
      generalize hbehind :
        List.drop l (List.drop (b - 1) [w1, w2, w3, w4, w5, w6, w7]) = behind
      have hfl : front.length = b - 1 := by
        rw [← hfront]
        simp only [List.length_take, List.length_cons, List.length_nil]; omega
      have hbhl : behind.length = 8 - b - l := by
        rw [← hbehind]
        simp only [List.length_drop, List.length_cons, List.length_nil]; omega
      have hfw : ∀ v ∈ front, v < 65536 := by
        intro v hv
        rw [← hfront] at hv
        exact hw v (List.mem_cons_of_mem _ (List.mem_of_mem_take hv))
      have hbw : ∀ v ∈ behind, v < 65536 := by
        intro v hv
        rw [← hbehind] at hv
        exact hw v (List.mem_cons_of_mem _ (List.mem_of_mem_drop (List.mem_of_mem_drop hv)))
      have h1' : behind = [] → (if b + l = 8 then [':'] else []) = [':'] := by
        intro hnil
        have : b + l = 8 := by
          have := congrArg List.length hnil
          rw [hbhl] at this
          simp only [List.length_nil] at this
          omega
        exact if_pos this
      have h2' : behind ≠ [] → (if b + l = 8 then [':'] else []) = [] := by
        intro hne
        have : ¬ b + l = 8 := by
          intro h8
          apply hne
          apply List.eq_nil_of_length_eq_zero
          rw [hbhl]; omega
        exact if_neg this
      have := inet_pton6_front_run w0 front behind (if b + l = 8 then [':'] else [])
        (hw w0 (by simp)) hfw hbw (by rw [hfl, hbhl]; omega) h1' h2'
      have hassoc : hex_text w0 ++ (colon_hex front ++ ([':'] ++ colon_hex behind)) ++
          (if b + l = 8 then [':'] else []) =
          hex_text w0 ++ (colon_hex front ++ ':' :: (colon_hex behind ++
            (if b + l = 8 then [':'] else []))) := by
        simp
      rw [hassoc, this, hfl, hbhl]
      congr 2
      have e : 8 - (b - 1 + 1 + (8 - b - l)) = l := by omega
      rw [e]
      have hs2 := hsplit
      have ht : List.take b [w0, w1, w2, w3, w4, w5, w6, w7] = w0 :: front := by
        rw [← hfront]
        obtain ⟨b', rfl⟩ : ∃ b', b = b' + 1 := ⟨b - 1, by omega⟩
        simp
      have hd : List.drop (b + l) [w0, w1, w2, w3, w4, w5, w6, w7] = behind := by
        rw [← hbehind]
        obtain ⟨b', rfl⟩ : ∃ b', b = b' + 1 := ⟨b - 1, by omega⟩
        have : b' + 1 + l = (b' + l) + 1 := by omega
        rw [this, List.drop_succ_cons, List.drop_drop]
        simp [Nat.add_comm]
      rw [ht, hd] at hs2
      exact hs2.symm

theorem word_bytes_pair (hi lo : Nat) (h1 : hi < 256) (h2 : lo < 256) :
    word_bytes (hi * 256 + lo) = [hi, lo] := by
  simp only [word_bytes]
  have e1 : (hi * 256 + lo) / 256 % 256 = hi := by omega
  have e2 : (hi * 256 + lo) % 256 = lo := by omega
  rw [e1, e2]

/-- Parsing the text `inet_ntop` prints for sixteen bytes gives the bytes back. -/
theorem inet_pton6_ntop6 (a : List Nat) (hlen : a.length = 16) (hb : ∀ b ∈ a, b < 256) :
    inet_pton6 (inet_ntop6_text a) = some a := by
  match a, hlen with
  | [a0, a1, a2, a3, a4, a5, a6, a7, a8, a9, a10, a11, a12, a13, a14, a15], _ =>
    have h0 : a0 < 256 := hb a0 (by simp)
    have h1 : a1 < 256 := hb a1 (by simp)
    have h2 : a2 < 256 := hb a2 (by simp)
    have h3 : a3 < 256 := hb a3 (by simp)
    have h4 : a4 < 256 := hb a4 (by simp)
    have h5 : a5 < 256 := hb a5 (by simp)
    have h6 : a6 < 256 := hb a6 (by simp)
    have h7 : a7 < 256 := hb a7 (by simp)
    have h8 : a8 < 256 := hb a8 (by simp)
    have h9 : a9 < 256 := hb a9 (by simp)
    have h10 : a10 < 256 := hb a10 (by simp)
    have h11 : a11 < 256 := hb a11 (by simp)
    have h12 : a12 < 256 := hb a12 (by simp)
    have h13 : a13 < 256 := hb a13 (by simp)
    have h14 : a14 < 256 := hb a14 (by simp)
    have h15 : a15 < 256 := hb a15 (by simp)
    have hw : ∀ v ∈ [a0 * 256 + a1, a2 * 256 + a3, a4 * 256 + a5, a6 * 256 + a7,
        a8 * 256 + a9, a10 * 256 + a11, a12 * 256 + a13, a14 * 256 + a15], v < 65536 := by
      intro v hv
      simp only [List.mem_cons, List.mem_singleton, List.not_mem_nil, or_false] at hv
      rcases hv with hv | hv | hv | hv | hv | hv | hv | hv <;> omega
    have key := inet_pton6_words (a0 * 256 + a1) (a2 * 256 + a3) (a4 * 256 + a5)
      (a6 * 256 + a7) (a8 * 256 + a9) (a10 * 256 + a11) (a12 * 256 + a13) (a14 * 256 + a15)
      a12 a13 a14 a15 hw h12 h13 h14 h15 rfl rfl
    have hback : [a0 * 256 + a1, a2 * 256 + a3, a4 * 256 + a5, a6 * 256 + a7,
        a8 * 256 + a9, a10 * 256 + a11, a12 * 256 + a13, a14 * 256 + a15].flatMap word_bytes =
        [a0, a1, a2, a3, a4, a5, a6, a7, a8, a9, a10, a11, a12, a13, a14, a15] := by
      simp only [List.flatMap_cons, List.flatMap_nil, word_bytes_pair, h0, h1, h2, h3, h4, h5,
        h6, h7, h8, h9, h10, h11, h12, h13, h14, h15, List.cons_append, List.nil_append,
        List.append_nil]
    rw [hback] at key
    exact key

theorem format6_colon (best : Option (Nat × Nat)) (w5 : Nat) (src12 : List Nat)
    (w0 w1 : Nat) (rest : List Nat) :
    ':' ∈ format6 best w5 src12 (w0 :: w1 :: rest) 0 := by
  cases best with
  | none =>
    rw [format6_none_zero, colon_hex_cons]
    simp
  | some r =>
    obtain ⟨b, l⟩ := r
    by_cases h0 : b ≤ 0 ∧ 0 < b + l
    · rw [format6_run b l w5 src12 1 _ 0 h0.1 (by omega) (by simp)]
      have hc : 0 = b ∧ 0 < 1 := ⟨by omega, by omega⟩
      rw [if_pos hc]
      simp
    · have he : ¬ ((0 : Nat) = 6 ∧ b = 0 ∧ (l = 6 ∨ (l = 5 ∧ w5 = 65535))) := by omega
      have step0 : format6 (some (b, l)) w5 src12 (w0 :: w1 :: rest) 0 =
          hex_text w0 ++ format6 (some (b, l)) w5 src12 (w1 :: rest) 1 := by
        simp only [format6, h0, decide_False, Bool.false_eq_true, if_false, ne_eq,
          not_true_eq_false, he, List.nil_append, Nat.zero_add]
      rw [step0]
      apply List.mem_append_right
      by_cases h1 : b ≤ 1 ∧ 1 < b + l
      · rw [format6_run b l w5 src12 1 _ 1 h1.1 (by omega) (by simp)]
        have hc : 1 = b ∧ 0 < 1 := ⟨by omega, by omega⟩
        rw [if_pos hc]
        simp
      · simp only [format6, h1, decide_False, Bool.false_eq_true, if_false, ne_eq,
          one_ne_zero, not_false_eq_true, if_true, List.singleton_append, List.mem_cons,
          true_or]

/-- The text `inet_ntop` prints for an IPv6 address contains a colon. -/
theorem inet_ntop6_text_colon (a : List Nat) (hlen : a.length = 16) :
    ':' ∈ inet_ntop6_text a := by
  match a, hlen with
  | [a0, a1, a2, a3, a4, a5, a6, a7, a8, a9, a10, a11, a12, a13, a14, a15], _ =>
    simp only [inet_ntop6_text, bytes_words]
    apply List.mem_append_left
    exact format6_colon _ _ _ _ _ _

theorem inet_pton4_chars (s : List Char) (q : List Nat) (h : inet_pton4 s = some q) :
    ∀ c ∈ s, isdigit c = true ∨ c = '.' := by
  obtain ⟨htext, hlen, hb⟩ := inet_pton4_sound s q h
  have := htonl_ntohl q hlen hb
  rw [htext, ← this]
  exact htonl_text_chars _

/-- A text the loop of `inet_pton6` accepts consists of hexadecimal digits, colons and
dots. -/
theorem inet_pton6_loop_chars (s : List Char) :
    ∀ (words : List Nat) (colonp : Option Nat) (curtok : List Char) (seen val : Nat)
      (st : Pton6), (∃ front, curtok = front ++ s) →
      inet_pton6_loop s words colonp curtok seen val = some st →
      ∀ c ∈ s, (hex_digit_value c).isSome = true ∨ c = ':' ∨ c = '.' := by
  induction s with
  | nil => intro _ _ _ _ _ _ _ _ c hc; cases hc
  | cons ch s ih =>
    intro words colonp curtok seen val st htok h c hc
    obtain ⟨front, hfront⟩ := htok
    have htok' : ∃ f, curtok = f ++ s := ⟨front ++ [ch], by simp [hfront]⟩
    cases hh : hex_digit_value ch with
    | some digit =>
      rcases List.mem_cons.mp hc with hc | hc
      · subst hc
        left
        simp [hh]
      · simp only [inet_pton6_loop, hh] at h
        split at h
        · cases h
        · split at h
          · cases h
          · exact ih _ _ _ _ _ _ htok' h c hc
    | none =>
      simp only [inet_pton6_loop, hh] at h
      by_cases hcol : ch = ':'
      · rcases List.mem_cons.mp hc with hc | hc
        · right; left; rw [hc, hcol]
        · rw [if_pos hcol] at h
          split at h
          · split at h
            · cases h
            · exact ih _ _ _ _ _ _ ⟨[], rfl⟩ h c hc
          · split at h
            · cases h
            · split at h
              · cases h
              · exact ih _ _ _ _ _ _ ⟨[], rfl⟩ h c hc
      · rw [if_neg hcol] at h
        split at h
        · rename_i hdot
          cases hq : inet_pton4 curtok with
          | none => rw [hq] at h; cases h
          | some q =>
            have hall := inet_pton4_chars curtok q hq
            rcases List.mem_cons.mp hc with hc | hc
            · right; right; rw [hc]; exact hdot.1
            · have hmem : c ∈ curtok := by
                rw [hfront]
                exact List.mem_append_right _ (List.mem_cons_of_mem _ hc)
              rcases hall c hmem with hd | hd
              · left
                simp [hex_digit_value, hd]
              · right; right; exact hd
        · cases h

/-- A text `inet_pton6` accepts consists of hexadecimal digits, colons and dots. -/
theorem inet_pton6_chars (s : List Char) (a : List Nat) (h : inet_pton6 s = some a) :
    ∀ c ∈ s, (hex_digit_value c).isSome = true ∨ c = ':' ∨ c = '.' := by
  have body : ∀ t : List Char, inet_pton6_body t = some a →
      ∀ c ∈ t, (hex_digit_value c).isSome = true ∨ c = ':' ∨ c = '.' := by
    intro t ht
    obtain ⟨st, hl, _⟩ := Option.bind_eq_some.mp ht
    exact inet_pton6_loop_chars t [] none t 0 0 st ⟨[], rfl⟩ hl
  unfold inet_pton6 at h
  split at h
  · cases h
  · split at h
    · intro c hc
      rcases List.mem_cons.mp hc with hc | hc
      · right; left; exact hc
      · exact body _ h c hc
    · cases h
  · exact body _ h

theorem inet_pton6_not_mem (s : List Char) (a : List Nat) (h : inet_pton6 s = some a)
    (c : Char) (h1 : hex_digit_value c = none) (h2 : c ≠ ':') (h3 : c ≠ '.') : c ∉ s := by
  intro hc
  rcases inet_pton6_chars s a h c hc with h' | h' | h'
  · rw [h1] at h'
    cases h'
  · exact h2 h'
  · exact h3 h'

theorem addr6_shape (a : List Nat) (hlen : a.length = 16) (hb : ∀ b ∈ a, b < 256) (k : Nat) :
    (addr6 a k).length = 16 ∧ ∀ b ∈ addr6 a k, b < 256 := by
  refine ⟨by simp [addr6, hlen, htonl_bytes], ?_⟩
  intro b hmem
  rcases List.mem_append.mp hmem with h | h
  · exact hb b (List.mem_of_mem_take h)
  · exact htonl_lt _ b h

theorem inet_pton6_loop_no_colon (s : List Char) :
    ∀ (words : List Nat) (colonp : Option Nat) (curtok : List Char) (seen val : Nat)
      (st : Pton6), ':' ∉ s →
      inet_pton6_loop s words colonp curtok seen val = some st →
      st.colonp = colonp ∧
        (st.words = words ∨ (st.words.length = words.length + 2 ∧ st.xdigits_seen = 0)) := by
  induction s with
  | nil =>
    intro words colonp curtok seen val st _ h
    simp only [inet_pton6_loop, Option.some.injEq] at h
    subst h
    exact ⟨rfl, Or.inl rfl⟩
  | cons ch s ih =>
    intro words colonp curtok seen val st hc h
    simp only [List.mem_cons, not_or] at hc
    have hne : ¬ ch = ':' := fun e => hc.1 e.symm
    cases hh : hex_digit_value ch with
    | some digit =>
      simp only [inet_pton6_loop, hh] at h
      split at h
      · cases h
      · split at h
        · cases h
        · exact ih _ _ _ _ _ _ hc.2 h
    | none =>
      simp only [inet_pton6_loop, hh, if_neg hne] at h
      split at h
      · cases hq : inet_pton4 curtok with
        | none => rw [hq] at h; cases h
        | some q =>
          rw [hq] at h
          simp only [Option.some.injEq] at h
          subst h
          exact ⟨rfl, Or.inr ⟨by simp, rfl⟩⟩
      · cases h

/-- A text `inet_pton6` accepts contains a colon. -/
theorem inet_pton6_colon (s : List Char) (a : List Nat) (h : inet_pton6 s = some a) :
    ':' ∈ s := by
  by_contra hc
  have body : inet_pton6_body s = none := by
    unfold inet_pton6_body
    cases hl : inet_pton6_loop s [] none s 0 0 with
    | none => rfl
    | some st =>
      obtain ⟨hcol, hw⟩ := inet_pton6_loop_no_colon s [] none s 0 0 st hc hl
      obtain ⟨words, colonp, seen, val⟩ := st
      simp only at hcol hw
      subst hcol
      have hfin : inet_pton6_finish ⟨words, none, seen, val⟩ = none := by
        unfold inet_pton6_finish
        rcases hw with hw | ⟨hw, hs⟩
        · subst hw
          by_cases h0 : 0 < seen <;> simp [h0]
        · subst hs
          simp only [List.length_nil, Nat.zero_add] at hw
          simp [hw]
      simp [hfin]
  cases s with
  | nil => simp [inet_pton6] at h
  | cons c t =>
    have hne : c ≠ ':' := by
      intro e
      apply hc
      rw [e]
      exact List.mem_cons_self _ _
    rw [inet_pton6_of_ne_colon c hne, body] at h
    cases h

theorem addr6_take (a : List Nat) (hlen : a.length = 16) (k : Nat) :
    (addr6 a k).take 12 = a.take 12 := by
  have : (a.take 12).length = 12 := by simp [hlen]
  rw [addr6, List.take_left' this]

theorem addr6_drop (a : List Nat) (hlen : a.length = 16) (k : Nat) :
    (addr6 a k).drop 12 = htonl_bytes ((ntohl_bytes (a.drop 12) + k) % 2 ^ 32) := by
  have : (a.take 12).length = 12 := by simp [hlen]
  rw [addr6, List.drop_left' this]

theorem step6_addr6 (a : List Nat) (hlen : a.length = 16) (k : Nat) :
    step6 (addr6 a k) = addr6 a (k + 1) := by
  rw [step6, addr6_take a hlen, addr6_drop a hlen, ntohl_htonl _ (Nat.mod_lt _ (by norm_num))]
  rw [addr6]
  have : ((ntohl_bytes (a.drop 12) + k) % 2 ^ 32 + 1) % 2 ^ 32 =
      (ntohl_bytes (a.drop 12) + (k + 1)) % 2 ^ 32 := by omega
  rw [this]

theorem addr6_zero (a : List Nat) (hlen : a.length = 16) (hb : ∀ b ∈ a, b < 256) :
    addr6 a 0 = a := by
  have h4 : (a.drop 12).length = 4 := by simp [hlen]
  have hb4 : ∀ b ∈ a.drop 12, b < 256 := fun b h => hb b (List.mem_of_mem_drop h)
  rw [addr6, Nat.add_zero, htonl_ntohl _ h4 hb4, List.take_append_drop]

theorem addr6_injective (a : List Nat) (j k : Nat) (hj : j < 2 ^ 32) (hk : k < 2 ^ 32)
    (h : addr6 a j = addr6 a k) : j = k := by
  simp only [addr6] at h
  have h2 := congrArg ntohl_bytes (List.append_cancel_left h)
  rw [ntohl_htonl _ (Nat.mod_lt _ (by norm_num)), ntohl_htonl _ (Nat.mod_lt _ (by norm_num))] at h2
  by_contra hne
  rcases Nat.lt_or_gt_of_ne hne with hlt | hlt
  · have := Nat.ModEq.add_left_cancel' (ntohl_bytes (a.drop 12)) h2
    have h3 : j % 2 ^ 32 = k % 2 ^ 32 := this
    rw [Nat.mod_eq_of_lt hj, Nat.mod_eq_of_lt hk] at h3
    exact hne h3
  · have := Nat.ModEq.add_left_cancel' (ntohl_bytes (a.drop 12)) h2
    have h3 : j % 2 ^ 32 = k % 2 ^ 32 := this
    rw [Nat.mod_eq_of_lt hj, Nat.mod_eq_of_lt hk] at h3
    exact hne h3

/-- On a text of the address `addr6 a j` the body of the inner loop succeeds, and leaves
the text of the next address when that text fits the size passed to `inet_ntop`. -/
theorem next_group_ipv6 (a : List Nat) (hlen : a.length = 16) (j : Nat) (g : List Char)
    (hcolon : ':' ∈ g) (hp : inet_pton6 g = some (addr6 a j)) :
    ∃ g', next_group g = some g' ∧
      ((inet_ntop6_text (addr6 a (j + 1))).length + 1 ≤ SIZEOF_SOCKADDR_IN6 →
        g' = inet_ntop6_text (addr6 a (j + 1))) := by
  simp only [next_group, strchr_isSome g ':' hcolon, if_true, hp, step6_addr6 a hlen, inet_ntop]
  refine ⟨_, rfl, ?_⟩
  intro hfit
  rw [if_pos hfit]
  rfl

/-- The inner loop on a text of the IPv6 address `addr6 a j`, when the texts of the
addresses behind it fit the size passed to `inet_ntop`. -/
theorem expand_loop_ipv6 (source : Option (List Char)) (a : List Nat) (hlen : a.length = 16)
    (hb : ∀ b ∈ a, b < 256) (n : Nat) :
    ∀ (j : Nat) (g : List Char) (groups : List gr),
      ':' ∈ g → inet_pton6 g = some (addr6 a j) →
      (∀ k, j < k → k < j + n →
        (inet_ntop6_text (addr6 a k)).length + 1 ≤ SIZEOF_SOCKADDR_IN6) →
      groups.length + n ≤ MAX_NUM_GROUPS →
      expand_loop source n g groups =
        Except.ok (groups ++ (List.range n).map fun i =>
          { source := source,
            group := if i = 0 then g else inet_ntop6_text (addr6 a (j + i)) }) := by
  induction n with
  | zero => intro j g groups _ _ _ _; simp [expand_loop]
  | succ n ih =>
    intro j g groups hcolon hp hk hmax
    have hlt : groups.length < MAX_NUM_GROUPS := by omega
    obtain ⟨g', hnext, hg'⟩ := next_group_ipv6 a hlen j g hcolon hp
    simp only [expand_loop, hlt, if_true, hnext]
    cases n with
    | zero => simp [expand_loop, List.range_succ]
    | succ m =>
      have hfit := hk (j + 1) (by omega) (by omega)
      have hg := hg' hfit
      subst hg
      obtain ⟨hl1, hb1⟩ := addr6_shape a hlen hb (j + 1)
      rw [ih (j + 1) _ _ (inet_ntop6_text_colon _ hl1) (inet_pton6_ntop6 _ hl1 hb1)
        (fun k h1 h2 => hk k (by omega) (by omega))
        (by simp only [List.length_append, List.length_singleton]; omega)]
      simp only [List.range_succ_eq_map (m + 1), List.map_cons, List.map_map, List.append_assoc,
        List.singleton_append, if_true]
      congr 3
      · apply List.map_congr_left
        intro i _
        simp only [Function.comp_apply, Nat.succ_eq_add_one, Nat.add_eq_zero, one_ne_zero,
          and_false, if_false]
        by_cases hi : i = 0
        · subst hi; simp
        · simp only [hi, if_false]
          have : j + 1 + i = j + (i + 1) := by omega
          rw [this]

/-- C8 as stated fails: for `ff02::ffff:ffff+2` the second entry is `ff02::`, whose
128-bit value is not the value of the first plus 1. -/
theorem expand_spec_ipv6_wraps_at_32_bits :
    expand_spec [] "ff02::ffff:ffff+2".toList =
      Except.ok [{ group := "ff02::ffff:ffff".toList }, { group := "ff02::".toList }] ∧
    (inet_pton6 "ff02::ffff:ffff".toList).map be_value =
      some 0xff0200000000000000000000ffffffff ∧
    (inet_pton6 "ff02::".toList).map be_value = some 0xff020000000000000000000000000000 ∧
    (inet_pton6 "ff02::".toList).map be_value ≠
      (inet_pton6 "ff02::ffff:ffff".toList).map (fun v => be_value v + 1) := by
  decide

/-- The text given for `inet_ntop` to fill is 39 characters long here, the call fails
for want of room, and all three entries carry the same address. -/
theorem ipv6_long_text_repeats :
    expand_spec [] "ff02:1111:2222:3333:4444:5555:6666:7777+3".toList =
      Except.ok [{ group := "ff02:1111:2222:3333:4444:5555:6666:7777".toList },
        { group := "ff02:1111:2222:3333:4444:5555:6666:7777".toList },
        { group := "ff02:1111:2222:3333:4444:5555:6666:7777".toList }] := by
  decide

/-- C8, amended: for a spec `[S,]G+N` whose group `G` is a valid IPv6 literal and whose
`N` is accepted, if the text of every address generated behind `G` fits the 28 bytes
passed to `inet_ntop`, then the `N` entries appended carry, for `k = 0 .. N-1` in order,
a text of the address that has the first twelve bytes of `G` and whose last four bytes
hold the 32-bit value of those of `G` plus `k` modulo `2 ^ 32`: the text given for
`k = 0`, the text `inet_ntop` prints for `k > 0`.  These texts are pairwise distinct. -/
theorem expand_spec_ipv6 (groups : List gr) (source : Option (List Char)) (group : List Char)
    (num : Option (List Char)) (a : List Nat)
    (hs : ∀ s, source = some s → '+' ∉ s ∧ ',' ∉ s)
    (hp : inet_pton6 group = some a)
    (h1 : 1 ≤ spec_num num)
    (hmax : spec_num num + (groups.length : Int) < (MAX_NUM_GROUPS : Int))
    (hfit : ∀ k, 1 ≤ k → k < (spec_num num).toNat →
      (inet_ntop6_text (addr6 a k)).length + 1 ≤ SIZEOF_SOCKADDR_IN6) :
    expand_spec groups (spec_text source group num) =
      Except.ok (groups ++ (List.range (spec_num num).toNat).map fun k =>
        { source := source, group := text6 group a k }) ∧
    (∀ k, k < (spec_num num).toNat → inet_pton6 (text6 group a k) = some (addr6 a k)) ∧
    (∀ j k, j < (spec_num num).toNat → k < (spec_num num).toNat →
      text6 group a j = text6 group a k → j = k) := by
  obtain ⟨hlen, hb⟩ := inet_pton6_shape group a hp
  have hcolon := inet_pton6_colon group a hp
  have hg : '+' ∉ group ∧ ',' ∉ group :=
    ⟨inet_pton6_not_mem group a hp '+' (by decide) (by decide) (by decide),
     inet_pton6_not_mem group a hp ',' (by decide) (by decide) (by decide)⟩
  have hp0 : inet_pton6 group = some (addr6 a 0) := by rw [addr6_zero a hlen hb]; exact hp
  obtain ⟨hnum, hsplit⟩ := split_spec_text source group num hs hg
  have hguard : ¬ (spec_num num < 1 ∨ spec_num num + (groups.length : Int) ≥ (MAX_NUM_GROUPS : Int)) := by
    omega
  have hparse : ∀ k, k < (spec_num num).toNat →
      inet_pton6 (text6 group a k) = some (addr6 a k) := by
    intro k hkn
    by_cases hk0 : k = 0
    · subst hk0
      simpa [text6] using hp0
    · simp only [text6, hk0, if_false]
      obtain ⟨hl1, hb1⟩ := addr6_shape a hlen hb k
      exact inet_pton6_ntop6 _ hl1 hb1
  refine ⟨?_, hparse, ?_⟩
  · simp only [expand_spec, hnum, hsplit, hguard, if_false]
    have := expand_loop_ipv6 source a hlen hb (spec_num num).toNat 0 group groups hcolon hp0
      (fun k h1 h2 => hfit k (by omega) (by omega)) (by omega)
    rw [this]
    simp only [Nat.zero_add, text6]
  · intro j k hj hkn hjk
    have h2 : some (addr6 a j) = some (addr6 a k) := by
      rw [← hparse j hj, ← hparse k hkn, hjk]
    have hN : (spec_num num).toNat < 2 ^ 32 := by
      have : (MAX_NUM_GROUPS : Int) = 2048 := rfl
      omega
    exact addr6_injective a j k (by omega) (by omega) (Option.some.inj h2)

/-- Witness of `expand_spec_ipv6`: the spec `ff02::1+3`. -/
theorem expand_spec_ipv6_witness :
    expand_spec [] "ff02::1+3".toList =
      Except.ok [{ group := "ff02::1".toList }, { group := "ff02::2".toList },
        { group := "ff02::3".toList }] :=
  (expand_spec_ipv6 [] none "ff02::1".toList (some "3".toList)
    [255, 2, 0, 0, 0, 0, 0, 0, 0, 0, 0, 0, 0, 0, 0, 1]
    (by intro s h; cases h) (by decide) (by decide) (by decide)
    (by
      intro k h1 h2
      have h3 : k < 3 := h2
      interval_cases k <;> decide)).1

/-! ## What the expansion accepts -/

theorem expand_loop_error (source : Option (List Char)) (n : Nat) :
    ∀ (group : List Char) (groups : List gr) (code : Int),
      expand_loop source n group groups = Except.error code → code = 1 := by
  induction n with
  | zero => intro group groups code h; simp [expand_loop] at h
  | succ n ih =>
    intro group groups code h
    simp only [expand_loop] at h
    split at h
    · split at h
      · simp only [Except.error.injEq] at h
        exact h.symm
      · exact ih _ _ _ h
    · cases h

theorem expand_spec_error (groups : List gr) (arg : List Char) (code : Int)
    (h : expand_spec groups arg = Except.error code) : code = 1 := by
  simp only [expand_spec] at h
  split at h
  · simp only [Except.error.injEq] at h
    exact h.symm
  · exact expand_loop_error _ _ _ _ _ h

theorem next_group_eq_none (group : List Char) (h : parse_group group = none) :
    next_group group = none := by
  unfold parse_group at h
  unfold next_group
  split
  · rename_i hc
    rw [if_pos hc] at h
    rw [h]
  · rename_i hc
    rw [if_neg hc] at h
    rw [h]

/-- A spec whose group text `inet_pton` rejects for its family ends the run. -/
theorem expand_spec_invalid_group (groups : List gr) (arg : List Char)
    (h : parse_group (group_of arg) = none) : expand_spec groups arg = Except.error 1 := by
  simp only [expand_spec]
  split
  · rfl
  · rename_i hguard
    have hn : 1 ≤ (split_plus arg).2 ∧
        (split_plus arg).2 + (groups.length : Int) < (MAX_NUM_GROUPS : Int) := by omega
    obtain ⟨n, hn'⟩ : ∃ n, ((split_plus arg).2).toNat = n + 1 :=
      ⟨((split_plus arg).2).toNat - 1, by omega⟩
    have hlt : groups.length < MAX_NUM_GROUPS := by omega
    rw [hn']
    simp only [expand_loop, hlt, if_true]
    have := next_group_eq_none _ h
    unfold group_of at this
    rw [this]

/-- The part of C3 that holds: a list with a spec whose group literal is no address of
the family inferred from it is rejected with the usage error. -/
theorem expand_specs_invalid_group (args : List (List Char)) :
    ∀ (groups : List gr) (arg : List Char), arg ∈ args → parse_group (group_of arg) = none →
      expand_specs args groups = Except.error 1 := by
  induction args with
  | nil => intro _ _ h; cases h
  | cons x rest ih =>
    intro groups arg hmem hbad
    simp only [expand_specs]
    cases hx : expand_spec groups x with
    | error code =>
      rw [expand_spec_error groups x code hx]
    | ok groups' =>
      rcases List.mem_cons.mp hmem with h | h
      · subst h
        rw [expand_spec_invalid_group groups arg hbad] at hx
        cases hx
      · exact ih groups' arg h hbad

theorem main_groups_invalid_group (args : List (List Char)) (port : Nat) (arg : List Char)
    (hmem : arg ∈ args) (hbad : parse_group (group_of arg) = none) :
    main_groups args port = Except.error 1 := by
  simp only [main_groups, expand_specs_invalid_group args _ arg hmem hbad]

/-- Line 667 on one spec with valid literals: it is rejected exactly when its number is
below 1 or reaches the limit together with the entries in the table. -/
theorem expand_spec_rejects (groups : List gr) (s : Spec)
    (hs : ∀ t, s.source = some t → '+' ∉ t ∧ ',' ∉ t) (hg : '+' ∉ s.group ∧ ',' ∉ s.group)
    (h : spec_num s.num < 1 ∨
      spec_num s.num + (groups.length : Int) ≥ (MAX_NUM_GROUPS : Int)) :
    expand_spec groups (spec_text s.source s.group s.num) = Except.error 1 := by
  obtain ⟨hnum, _⟩ := split_spec_text s.source s.group s.num hs hg
  simp only [expand_spec, hnum, h, if_true]

/-- The part of C1 that holds: for specs with valid IPv4 literals the expansion succeeds
exactly when every spec passes the check of line 667, which keeps the table below
`MAX_NUM_GROUPS` entries; on success the table has grown by the sum of the numbers. -/
theorem expand_specs_ipv4 (specs : List Spec) :
    ∀ (groups : List gr),
      (∀ s ∈ specs, (∀ t, s.source = some t → '+' ∉ t ∧ ',' ∉ t) ∧
        ∃ a, inet_pton4 s.group = some a) →
      (passes_limit specs groups.length = true →
        ∃ table, expand_specs (specs.map fun s => spec_text s.source s.group s.num) groups =
          Except.ok table ∧ table.length = groups.length + total_count specs) ∧
      (passes_limit specs groups.length = false →
        expand_specs (specs.map fun s => spec_text s.source s.group s.num) groups =
          Except.error 1) := by
  induction specs with
  | nil =>
    intro groups _
    refine ⟨?_, ?_⟩
    · intro _
      exact ⟨groups, rfl, by simp [total_count]⟩
    · intro h
      simp [passes_limit] at h
  | cons s rest ih =>
    intro groups hvalid
    obtain ⟨hs, a, ha⟩ := hvalid s (List.mem_cons_self _ _)
    have hrest := fun x hx => hvalid x (List.mem_cons_of_mem _ hx)
    by_cases hpass : 1 ≤ spec_num s.num ∧
        spec_num s.num + (groups.length : Int) < (MAX_NUM_GROUPS : Int)
    · have hok := ipv4_spec_entries groups s.source s.group s.num a hs ha hpass.1 hpass.2
      have hlen : (groups ++ (List.range (spec_num s.num).toNat).map fun k =>
          ({ source := s.source,
             group := inet_ntop4_text (htonl_bytes ((ntohl_bytes a + k) % 2 ^ 32)) } : gr)).length
          = groups.length + (spec_num s.num).toNat := by simp
      obtain ⟨ih1, ih2⟩ := ih _ hrest
      rw [hlen] at ih1 ih2
      simp only [passes_limit, hpass, and_self, decide_True, Bool.true_and, List.map_cons,
        expand_specs, hok]
      refine ⟨?_, ih2⟩
      intro hp
      obtain ⟨table, ht, htl⟩ := ih1 hp
      refine ⟨table, ht, ?_⟩
      rw [htl]
      simp only [total_count, List.map_cons, List.sum_cons]
      omega
    · obtain ⟨htext, hlen4, hb4⟩ := inet_pton4_sound s.group a ha
      have hv := ntohl_lt a hlen4 hb4
      have hcanon : s.group = inet_ntop4_text (htonl_bytes (ntohl_bytes a)) := by
        have := htonl_ntohl a hlen4 hb4
        rw [Nat.mod_eq_of_lt hv] at this
        rw [this]
        exact htext
      have hg : '+' ∉ s.group ∧ ',' ∉ s.group := by
        rw [hcanon]
        exact ⟨htonl_text_not_mem _ '+' (by decide) (by decide),
          htonl_text_not_mem _ ',' (by decide) (by decide)⟩
      have hrej := expand_spec_rejects groups s hs hg (by omega)
      simp only [passes_limit, hpass, decide_False, Bool.false_and, List.map_cons, expand_specs,
        hrej]
      simp

/-! ## Statistics -/

theorem show_stats_loop_log (groups : List gr) :
    ∀ (log : List Msg) (total : Nat),
      (show_stats_loop groups log total).1 =
        log ++ groups.map (fun g => Msg.group_received g.group g.count) := by
  induction groups with
  | nil => intro log total; simp [show_stats_loop]
  | cons g gs ih => intro log total; simp [show_stats_loop, ih]

theorem show_stats_loop_total (groups : List gr) :
    ∀ (log : List Msg) (total : Nat), total < SIZE_T_MOD →
      (show_stats_loop groups log total).2 = (total + total_received groups) % SIZE_T_MOD := by
  induction groups with
  | nil =>
    intro log total h
    simp only [show_stats_loop, total_received, List.map_nil, List.sum_nil, Nat.add_zero]
    exact (Nat.mod_eq_of_lt h).symm
  | cons g gs ih =>
    intro log total _
    have hlt : (total + g.count) % SIZE_T_MOD < SIZE_T_MOD :=
      Nat.mod_lt _ (by simp [SIZE_T_MOD])
    simp only [show_stats_loop, ih _ _ hlt, total_received, List.map_cons, List.sum_cons]
    simp only [SIZE_T_MOD]
    omega

/-- C7: in join mode, for a table of at least one group whose counters add up to a value
of `size_t`, `show_stats` prints the line of every group in table order exactly when
there is more than one group, followed by the total, which is the sum of all counters;
outside join mode it prints nothing. -/
theorem show_stats_total (join : Int) (groups : List gr) (hnum : 1 ≤ groups.length)
    (hfit : total_received groups < SIZE_T_MOD) :
    show_stats join groups =
      if join = 0 then []
      else (if 1 < groups.length then
              groups.map (fun g => Msg.group_received g.group g.count)
            else []) ++ [Msg.received_total (total_received groups)] := by
  unfold show_stats
  by_cases hj : join = 0
  · simp [hj]
  · simp only [ne_eq, hj, not_false_eq_true, if_true, if_false, gt_iff_lt]
    by_cases hlen : 1 < groups.length
    · simp only [hlen, if_true]
      rw [show_stats_loop_log, show_stats_loop_total _ _ _ (by simp [SIZE_T_MOD])]
      simp only [List.nil_append, Nat.zero_add, Nat.mod_eq_of_lt hfit]
    · simp only [hlen, if_false, List.nil_append]
      match groups, hnum, hlen with
      | [g], _, _ => simp [total_received]
      | _ :: _ :: _, _, h => simp at h

/-- Witness of `show_stats_total`: two groups with 3 and 4 packets. -/
theorem show_stats_total_witness :
    show_stats 1 [{ group := "225.1.2.3".toList, count := 3 },
                  { group := "225.1.2.4".toList, count := 4 }] =
      [Msg.group_received "225.1.2.3".toList 3, Msg.group_received "225.1.2.4".toList 4,
       Msg.received_total 7] :=
  show_stats_total 1 [{ group := "225.1.2.3".toList, count := 3 },
    { group := "225.1.2.4".toList, count := 4 }] (by decide) (by decide)

/-! ## The packet validator -/

/-- C4: a datagram in whose text `strstr` finds the marker, followed by a number `atoi`
reads as the receiver's own pid, leaves the table (every counter) as it was and makes
`recv_mcast` return -1, whatever control messages (destination address) come with it. -/
theorem recv_mcast_own_pid (getpid : Int) (groups : List gr) (id : Nat) (m : Received)
    (pos : Nat)
    (hmark : strstr (c_str (m.data.take BUFSZ)) MAGIC_KEY = some pos)
    (hpid : atoi ((c_str (m.data.take BUFSZ)).drop (pos + MAGIC_KEY.length)) = getpid) :
    (recv_mcast getpid groups id (some m)).ret = -1 ∧
      (recv_mcast getpid groups id (some m)).groups = groups := by
  have hs : sender_pid (c_str (m.data.take BUFSZ)) = getpid := by
    simp only [sender_pid, hmark, hpid]
  cases hd : find_dstaddr m.control with
  | none => simp [recv_mcast, hd]
  | some dstaddr => simp [recv_mcast, hd, hs]

/-- Witness of `recv_mcast_own_pid`: process 1234 receives its own datagram for
225.1.2.3 on the socket of that group, and also on the socket of 225.1.2.4. -/
theorem recv_mcast_own_pid_witness :
    ((recv_mcast 1234 two_groups 0 (some (probe 1234 "225.1.2.3".toList [225, 1, 2, 3]))).ret = -1 ∧
      (recv_mcast 1234 two_groups 0 (some (probe 1234 "225.1.2.3".toList [225, 1, 2, 3]))).groups
        = two_groups) ∧
    ((recv_mcast 1234 two_groups 1 (some (probe 1234 "225.1.2.3".toList [225, 1, 2, 3]))).ret = -1 ∧
      (recv_mcast 1234 two_groups 1 (some (probe 1234 "225.1.2.3".toList [225, 1, 2, 3]))).groups
        = two_groups) :=
  ⟨recv_mcast_own_pid 1234 two_groups 0 (probe 1234 "225.1.2.3".toList [225, 1, 2, 3]) 0
      (by decide) (by decide),
   recv_mcast_own_pid 1234 two_groups 1 (probe 1234 "225.1.2.3".toList [225, 1, 2, 3]) 0
      (by decide) (by decide)⟩

/-- C5 as stated fails: process 1234 receives, on the socket of 225.1.2.3, its own
datagram with recovered destination 225.1.2.4; the destination text differs from the
group text, yet nothing is logged. -/
theorem recv_mcast_wrong_destination_silent :
    find_dstaddr (probe 1234 "225.1.2.4".toList [225, 1, 2, 4]).control = some [225, 1, 2, 4] ∧
    inet_ntop4_text [225, 1, 2, 4] ≠ (two_groups.getD 0 default).group ∧
    (recv_mcast 1234 two_groups 0 (some (probe 1234 "225.1.2.4".toList [225, 1, 2, 4]))).log
      = [] := by
  decide

/-- C5, amended: a datagram whose recovered destination address has a text different from
the entry's group text never changes a counter and makes `recv_mcast` return -1; the
wrong-socket error is logged exactly when the sender pid read from the payload is not
the receiver's own pid. -/
theorem recv_mcast_wrong_destination (getpid : Int) (groups : List gr) (id : Nat)
    (m : Received) (dstaddr : List Nat)
    (hdst : find_dstaddr m.control = some dstaddr)
    (hne : inet_ntop4_text dstaddr ≠ (groups.getD id default).group) :
    (recv_mcast getpid groups id (some m)).groups = groups ∧
    (recv_mcast getpid groups id (some m)).ret = -1 ∧
    (recv_mcast getpid groups id (some m)).log =
      if sender_pid (c_str (m.data.take BUFSZ)) = getpid then []
      else [Msg.wrong_socket (inet_ntop4_text dstaddr) (groups.getD id default).group] := by
  simp only [recv_mcast, hdst]
  by_cases hs : sender_pid (c_str (m.data.take BUFSZ)) = getpid
  · rw [if_neg (not_not.mpr hs), if_pos hs]
    exact ⟨rfl, rfl, rfl⟩
  · rw [if_pos hs, if_pos hne, if_neg hs]
    exact ⟨rfl, rfl, rfl⟩

/-- Witness of `recv_mcast_wrong_destination`: the datagram of process 4321 for 225.1.2.4
arrives on the socket of 225.1.2.3 at process 1234 and is logged. -/
theorem recv_mcast_wrong_destination_witness :
    (recv_mcast 1234 two_groups 0 (some (probe 4321 "225.1.2.4".toList [225, 1, 2, 4]))).groups
      = two_groups ∧
    (recv_mcast 1234 two_groups 0 (some (probe 4321 "225.1.2.4".toList [225, 1, 2, 4]))).ret = -1 ∧
    (recv_mcast 1234 two_groups 0 (some (probe 4321 "225.1.2.4".toList [225, 1, 2, 4]))).log =
      if sender_pid (c_str ((probe 4321 "225.1.2.4".toList [225, 1, 2, 4]).data.take BUFSZ)) = 1234
      then []
      else [Msg.wrong_socket (inet_ntop4_text [225, 1, 2, 4]) (two_groups.getD 0 default).group] :=
  recv_mcast_wrong_destination 1234 two_groups 0 (probe 4321 "225.1.2.4".toList [225, 1, 2, 4])
    [225, 1, 2, 4] (by decide) (by decide)

/-! ## A process does not count its own datagrams -/

theorem digits_value_digit (acc d : Nat) (hd : d < 10) (tail : List Char) :
    digits_value acc (digit_char d :: tail) = digits_value (acc * 10 + d) tail := by
  simp [digits_value, isdigit_digit_char d hd, digit_char_sub d hd]

theorem digits_value_dec (fuel : Nat) :
    ∀ (m acc : Nat) (tail : List Char), m < fuel →
      digits_value acc (dec_text_fuel fuel m ++ tail) =
        digits_value (acc * 10 ^ (dec_text_fuel fuel m).length + m) tail := by
  induction fuel with
  | zero => intro m acc tail h; omega
  | succ f ih =>
    intro m acc tail hm
    by_cases h0 : m / 10 = 0
    · have hm10 : m % 10 = m := by omega
      simp only [dec_text_fuel, h0, if_true, List.nil_append, List.singleton_append,
        List.length_singleton, pow_one, hm10]
      exact digits_value_digit acc m (by omega) tail
    · simp only [dec_text_fuel, h0, if_false, List.append_assoc, List.singleton_append,
        List.length_append, List.length_singleton]
      rw [ih (m / 10) acc _ (by omega), digits_value_digit _ _ (by omega)]
      congr 1
      rw [pow_succ]
      have := Nat.div_add_mod m 10
      nlinarith [this]

theorem dec_text_fuel_isdigit (fuel : Nat) :
    ∀ (m : Nat), ∀ c ∈ dec_text_fuel fuel m, isdigit c = true := by
  induction fuel with
  | zero => intro m c hc; simp [dec_text_fuel] at hc
  | succ f ih =>
    intro m c hc
    simp only [dec_text_fuel, List.mem_append, List.mem_singleton] at hc
    rcases hc with hc | hc
    · split at hc
      · cases hc
      · exact ih _ c hc
    · rw [hc]
      exact isdigit_digit_char _ (by omega)

theorem dec_text_fuel_ne_nil (fuel m : Nat) : dec_text_fuel (fuel + 1) m ≠ [] := by
  simp [dec_text_fuel]

theorem dec_text_fuel_length (fuel : Nat) :
    ∀ (m k : Nat), 1 ≤ k → m < 10 ^ k → (dec_text_fuel fuel m).length ≤ k := by
  induction fuel with
  | zero => intro m k _ _; simp [dec_text_fuel]
  | succ f ih =>
    intro m k hk hm
    by_cases h0 : m / 10 = 0
    · simp only [dec_text_fuel, h0, if_true, List.nil_append, List.length_singleton]
      exact hk
    · simp only [dec_text_fuel, h0, if_false, List.length_append, List.length_singleton]
      obtain ⟨k', rfl⟩ : ∃ k', k = k' + 1 := ⟨k - 1, by omega⟩
      have hk' : 1 ≤ k' := by
        by_contra hlt
        have : k' = 0 := by omega
        subst this
        simp only [Nat.zero_add, pow_one] at hm
        omega
      have hm' : m / 10 < 10 ^ k' := by
        rw [pow_succ] at hm
        exact Nat.div_lt_of_lt_mul (by rw [Nat.mul_comm]; exact hm)
      have := ih (m / 10) k' hk' hm'
      omega

theorem isdigit_not_space (c : Char) (h : isdigit c = true) : isspace c = false := by
  simp only [isdigit, decide_eq_true_eq] at h
  simp only [isspace, decide_eq_false_iff_not]
  omega

/-- The number `%u` printed is read back by `atoi`, when no digit follows it. -/
theorem atoi_dec_text (n : Nat) (hn : n < 2 ^ 31) (tail : List Char)
    (htail : ∀ c, tail.head? = some c → isdigit c = false) :
    atoi (dec_text n ++ tail) = n := by
  have hdig := dec_text_fuel_isdigit (n + 1) n
  have hval := digits_value_dec (n + 1) n 0 tail (by omega)
  have htl : digits_value n tail = n := by
    cases tail with
    | nil => rfl
    | cons c t =>
      have := htail c rfl
      simp [digits_value, this]
  rw [Nat.zero_mul, Nat.zero_add, htl] at hval
  unfold dec_text at *
  cases htext : dec_text_fuel (n + 1) n with
  | nil => exact absurd htext (dec_text_fuel_ne_nil n n)
  | cons c r =>
    rw [htext] at hval hdig
    have hc : isdigit c = true := hdig c (List.mem_cons_self _ _)
    have hsp := isdigit_not_space c hc
    have hminus : c ≠ '-' := by
      intro e
      rw [e] at hc
      exact absurd hc (by decide)
    have hplus : c ≠ '+' := by
      intro e
      rw [e] at hc
      exact absurd hc (by decide)
    have hsigned : strtol_signed (c :: (r ++ tail)) = (digits_value 0 (c :: (r ++ tail)) : Int) := by
      unfold strtol_signed
      split
      · rename_i h
        cases h
        exact absurd rfl hminus
      · rename_i h
        cases h
        exact absurd rfl hplus
      · rfl
    simp only [atoi, List.cons_append, List.dropWhile_cons, hsp, Bool.false_eq_true, if_false,
      hsigned]
    rw [List.cons_append] at hval
    rw [hval]
    simp only [clamp_long, to_int]
    have h1 : ¬ ((n : Int) < -(2 ^ 63)) := by omega
    have h2 : ¬ ((n : Int) > 2 ^ 63 - 1) := by omega
    rw [if_neg h1, if_neg h2]
    omega

theorem starts_with_append (x rest : List Char) : starts_with (x ++ rest) x = true := by
  induction x with
  | nil => cases rest <;> rfl
  | cons c cs ih => simp [starts_with, ih]

theorem strstr_at_start (x rest : List Char) (hx : x ≠ []) : strstr (x ++ rest) x = some 0 := by
  cases x with
  | nil => exact absurd rfl hx
  | cons c cs =>
    have := starts_with_append (c :: cs) rest
    simp only [List.cons_append] at this ⊢
    simp [strstr, this]

/-- The sender pid `recv_mcast` reads from a datagram built by `send_mcast` is the pid
of the sending process. -/
theorem sender_pid_payload (pid : Nat) (hpid : pid < 2 ^ 31) (group : List Char)
    (counter : Nat) (buf : List Char) :
    sender_pid (c_str ((snprintf_buf buf (payload_text pid group counter)).take BUFSZ)) = pid := by
  have hlen : (dec_text pid).length ≤ 10 :=
    dec_text_fuel_length (pid + 1) pid 10 (by omega) (by omega)
  have hdig := dec_text_fuel_isdigit (pid + 1) pid
  obtain ⟨rest, hrest⟩ : ∃ rest,
      (snprintf_buf buf (payload_text pid group counter)).take BUFSZ =
        (MAGIC_KEY ++ (dec_text pid ++ [','])) ++ rest := by
    have h11 : MAGIC_KEY.length = 11 := rfl
    have hfront : (MAGIC_KEY ++ (dec_text pid ++ [','])).length ≤ BUFSZ - 1 := by
      simp only [List.length_append, h11, List.length_singleton, BUFSZ]
      omega
    have htext : payload_text pid group counter =
        (MAGIC_KEY ++ (dec_text pid ++ [','])) ++
          (" MC group ".toList ++ group ++ " ... count: ".toList ++ dec_text counter) := by
      simp only [payload_text]
      have : ", MC group ".toList = ',' :: " MC group ".toList := rfl
      rw [this]
      simp
    have hinner : ∀ tl : List Char,
        List.take (BUFSZ - 1) ((MAGIC_KEY ++ (dec_text pid ++ [','])) ++ tl) =
          (MAGIC_KEY ++ (dec_text pid ++ [','])) ++
            List.take (BUFSZ - 1 - (MAGIC_KEY ++ (dec_text pid ++ [','])).length) tl := by
      intro tl
      rw [List.take_append_eq_append_take, List.take_of_length_le hfront]
    rw [snprintf_buf, htext, hinner, List.append_assoc, List.take_append_eq_append_take,
      List.take_of_length_le (by simp only [BUFSZ] at hfront ⊢; omega)]
    exact ⟨_, rfl⟩
  have hnul : ∀ c ∈ MAGIC_KEY ++ (dec_text pid ++ [',']), (decide (c ≠ NUL)) = true := by
    intro c hc
    simp only [List.mem_append, List.mem_singleton] at hc
    rcases hc with hc | hc | hc
    · revert c
      decide
    · have := hdig c hc
      simp only [decide_eq_true_eq]
      intro e
      rw [e] at this
      exact absurd this (by decide)
    · rw [hc]
      decide
  have hstr : c_str ((MAGIC_KEY ++ (dec_text pid ++ [','])) ++ rest) =
      MAGIC_KEY ++ (dec_text pid ++ ',' :: c_str rest) := by
    unfold c_str
    rw [List.takeWhile_append_of_pos hnul]
    simp
  rw [hrest, hstr, sender_pid, strstr_at_start _ _ (by decide)]
  simp only [Nat.zero_add, List.drop_left]
  exact atoi_dec_text pid hpid _ (by intro c hc; cases hc; decide)

/-- A datagram built by the `send_mcast` of the receiving process itself is never
counted, on whatever socket it arrives and whatever its control messages say. -/
theorem recv_mcast_own_datagram (pid : Nat) (hpid : pid < 2 ^ 31) (groups : List gr) (id : Nat)
    (group : List Char) (counter : Nat) (buf : List Char) (control : List cmsghdr) :
    (recv_mcast pid groups id
        (some ⟨snprintf_buf buf (payload_text pid group counter), control⟩)).ret = -1 ∧
    (recv_mcast pid groups id
        (some ⟨snprintf_buf buf (payload_text pid group counter), control⟩)).groups = groups := by
  have hs := sender_pid_payload pid hpid group counter buf
  cases hd : find_dstaddr control with
  | none => simp [recv_mcast, hd]
  | some d => simp [recv_mcast, hd, hs]

/-! ## The count limit of the polling loop -/

theorem remaining_fold (groups : List gr) :
    ∀ init : Nat,
      (groups.foldl (fun total g => (total + (SIZE_T_MOD - g.count % SIZE_T_MOD)) % SIZE_T_MOD)
          init + total_received groups) % SIZE_T_MOD = init % SIZE_T_MOD := by
  induction groups with
  | nil => intro init; simp [total_received]
  | cons g gs ih =>
    intro init
    have h := ih ((init + (SIZE_T_MOD - g.count % SIZE_T_MOD)) % SIZE_T_MOD)
    simp only [total_received, List.map_cons, List.sum_cons, List.foldl_cons] at h ⊢
    simp only [SIZE_T_MOD] at h ⊢
    omega

theorem remaining_fold_lt (groups : List gr) :
    ∀ init : Nat, init < SIZE_T_MOD →
      groups.foldl (fun total g => (total + (SIZE_T_MOD - g.count % SIZE_T_MOD)) % SIZE_T_MOD)
        init < SIZE_T_MOD := by
  induction groups with
  | nil => intro init h; exact h
  | cons g gs ih =>
    intro init _
    exact ih _ (Nat.mod_lt _ (by simp [SIZE_T_MOD]))

/-- The test `total <= 0` of line 455 on the `size_t` total holds exactly when the sum
of the counters equals `count * group_num` (both taken in `size_t`): a sum that has
passed the target does not satisfy it. -/
theorem remaining_total_eq_zero_iff (count : Nat) (groups : List gr)
    (hc : count * groups.length < SIZE_T_MOD) (hs : total_received groups < SIZE_T_MOD) :
    remaining_total count groups ≤ 0 ↔ total_received groups = count * groups.length := by
  have h1 := remaining_fold groups (count * groups.length % SIZE_T_MOD)
  have h2 := remaining_fold_lt groups (count * groups.length % SIZE_T_MOD)
    (Nat.mod_lt _ (by simp [SIZE_T_MOD]))
  unfold remaining_total
  simp only [SIZE_T_MOD] at h1 h2 hc hs ⊢
  omega

/-- A round that services ready sockets ends the loop exactly when a limit is set and
the test of line 455 holds for the table it leaves. -/
theorem poll_round_ready_running (getpid : Int) (count : Nat) (restart : Int) (st : LoopState)
    (revents : List (Option (Option Received))) (hr : st.running = true) :
    (poll_round getpid count restart st (Poll.ready revents)).running = false ↔
      0 < count ∧
        remaining_total count (service_ready getpid revents 0 st.groups st.log).1 ≤ 0 := by
  simp only [poll_round]
  split
  · rename_i h
    simp [h]
  · rename_i h
    simp only [hr, Bool.true_eq_false, false_iff]
    exact h

/-! ## The send tick -/

/-- When `send_socket(AF_INET6)` fails and no IPv6 socket is cached, the tick sends
nothing, whatever the families of the groups are. -/
theorem send_mcast_without_ipv6 (pid : Nat) (groups : List gr) (open4 : Int) (st : SendState)
    (h6 : st.sd6 = -1) : (send_mcast pid groups open4 (-1) st).2 = [] := by
  unfold send_mcast
  by_cases h4 : (if st.sd4 = -1 then open4 else st.sd4) = -1
  · rw [if_pos h4]
  · have h : (if st.sd6 = -1 then (-1 : Int) else st.sd6) = -1 := by simp [h6]
    rw [if_neg h4, if_pos h]

theorem snprintf_buf_length (buf text : List Char) (h : buf.length = BUFSZ) :
    (snprintf_buf buf text).length = BUFSZ := by
  simp only [snprintf_buf, List.length_append, List.length_cons, List.length_take,
    List.length_drop, h, BUFSZ]
  omega

theorem send_loop_spec (pid : Nat) (sd4 sd6 : Int) (groups : List gr) :
    ∀ (buf : List Char) (counter : Nat), buf.length = BUFSZ →
      (send_loop pid sd4 sd6 groups buf counter).1.length = groups.length ∧
      ∀ s ∈ (send_loop pid sd4 sd6 groups buf counter).1, s.buf.length = BUFSZ := by
  induction groups with
  | nil => intro buf counter _; simp [send_loop]
  | cons g gs ih =>
    intro buf counter hbuf
    have hb := snprintf_buf_length buf (payload_text pid g.group counter) hbuf
    obtain ⟨h1, h2⟩ := ih _ ((counter + 1) % 2 ^ 32) hb
    refine ⟨by simp only [send_loop, List.length_cons, h1], ?_⟩
    intro s hs
    simp only [send_loop, List.mem_cons] at hs
    rcases hs with hs | hs
    · rw [hs]
      exact hb
    · exact h2 s hs

/-- With both send sockets at hand a tick sends one datagram for every group, each of
`BUFSZ` bytes. -/
theorem send_mcast_sends_all (pid : Nat) (groups : List gr) (open4 open6 : Int) (st : SendState)
    (h4 : (if st.sd4 = -1 then open4 else st.sd4) ≠ -1)
    (h6 : (if st.sd6 = -1 then open6 else st.sd6) ≠ -1) :
    (send_mcast pid groups open4 open6 st).2.length = groups.length ∧
    ∀ s ∈ (send_mcast pid groups open4 open6 st).2, s.buf.length = BUFSZ := by
  unfold send_mcast
  rw [if_neg h4, if_neg h6]
  exact send_loop_spec pid _ _ groups _ _ (by simp)

/-! ## The terminator store of `recv_mcast` -/

/-- Whenever a destination address is found, the store `buf[bytes] = 0` is made at
index `min BUFSZ (length of the payload)`: at `BUFSZ` for every datagram of `BUFSZ`
bytes or more. -/
theorem recv_mcast_terminator (getpid : Int) (groups : List gr) (id : Nat) (m : Received)
    (dstaddr : List Nat) (hd : find_dstaddr m.control = some dstaddr) :
    (recv_mcast getpid groups id (some m)).terminator = some (min BUFSZ m.data.length) := by
  simp only [recv_mcast, hd]
  split
  · split <;> simp
  · simp

/-! ## Evaluations at the inputs where the code departs from its description -/

/-- C1: the single spec `225.1.2.3+2048` has a valid literal, `N = 2048 ≥ 1` and a total
of exactly `MAX_NUM_GROUPS`, and line 667 rejects it with `usage(1)`. -/
theorem main_groups_rejects_total_2048 :
    inet_pton4 "225.1.2.3".toList = some [225, 1, 2, 3] ∧
    (split_plus "225.1.2.3+2048".toList).2 = 2048 ∧
    (2048 : Int) ≤ MAX_NUM_GROUPS ∧
    main_groups ["225.1.2.3+2048".toList] DEFAULT_PORT = Except.error 1 := by
  decide

/-- C3: the source literal `bogus` is no IPv4 address, and `main` still hands `loop()` a
table whose entry carries it as source, with a zero source address. -/
theorem main_groups_accepts_bad_source :
    inet_pton4 "bogus".toList = none ∧
    main_groups ["bogus,225.1.2.3".toList] DEFAULT_PORT =
      Except.ok [{ source := some "bogus".toList, group := "225.1.2.3".toList,
                   grp := ⟨AF_INET, [225, 1, 2, 3], DEFAULT_PORT⟩,
                   src := ⟨AF_INET, [0, 0, 0, 0], DEFAULT_PORT⟩ }] := by
  decide

/-- C6: with a limit of 1 packet and 2 groups, after the second round the counters are
2 and 1, their sum 3 has passed `1 * 2`, and the loop is still running and polling. -/
theorem poll_loop_overshoot_keeps_running :
    (poll_loop 1234 1 0 overshoot_rounds ⟨two_groups, true, true, []⟩).groups.map
        (fun g => g.count) = [2, 1] ∧
    1 * two_groups.length ≤
      total_received (poll_loop 1234 1 0 overshoot_rounds ⟨two_groups, true, true, []⟩).groups ∧
    (poll_loop 1234 1 0 overshoot_rounds ⟨two_groups, true, true, []⟩).running = true ∧
    (poll_loop 1234 1 0 overshoot_rounds ⟨two_groups, true, true, []⟩).polling = true := by
  decide

/-- C9: with IPv4 groups only, an open IPv4 send socket and `send_socket(AF_INET6)`
failing, the tick sends nothing. -/
theorem send_mcast_ipv6_failure_stops_ipv4 :
    (two_groups.all fun g => g.grp.ss_family = AF_INET) = true ∧
    send_mcast 4321 two_groups 5 (-1) { counter := 1, sd4 := -1, sd6 := -1 } =
      ({ counter := 1, sd4 := 5, sd6 := -1 }, []) ∧
    send_mcast 4321 two_groups 5 (-1) { counter := 1, sd4 := 5, sd6 := -1 } =
      ({ counter := 1, sd4 := 5, sd6 := -1 }, []) := by
  decide

/-- C10: the first datagram `send_mcast` sends has `BUFSZ` bytes, and on receiving it
`recv_mcast` stores the terminator at index `BUFSZ`, which is not below `BUFSZ`. -/
theorem recv_mcast_terminator_outside_buf :
    ((send_mcast 4321 two_groups 5 6 {}).2.map fun s => s.buf).head? =
      some (probe 4321 "225.1.2.3".toList [225, 1, 2, 3]).data ∧
    (probe 4321 "225.1.2.3".toList [225, 1, 2, 3]).data.length = BUFSZ ∧
    (recv_mcast 1234 two_groups 0
      (some (probe 4321 "225.1.2.3".toList [225, 1, 2, 3]))).terminator = some BUFSZ ∧
    ¬ BUFSZ < BUFSZ := by
  decide

end Mcjoin
